import Mathlib

/-!
# Verification of the Apex search-engine core

Shallow embedding of the Apex repository's core data structures and
algorithms: the tokenizer / stop-word pipeline, the inverted index,
the prefix trie, the Levenshtein edit-distance matcher, and the
bounded top-K selection built on the `MinHeap` class.

JavaScript `Map` / `Set` objects are modelled as association lists
(`List (α × β)`) and duplicate-free lists in insertion order, with
`Map.set` / `Set.add` updating in place for an existing key and
appending for a new one, exactly as ECMAScript specifies iteration
order.  Machine numbers in the embedded code are small non-negative
counters, modelled as `Nat`.
-/

namespace Apex

/-- `Map.get`: look up a key in an insertion-ordered association list. -/
def alistGet {α β : Type} [DecidableEq α] (l : List (α × β)) (k : α) :
    Option β :=
  (l.find? (fun p => p.1 = k)).map (fun p => p.2)

/-- `Map.set`: update in place when the key exists, else append. -/
def alistSet {α β : Type} [DecidableEq α] (l : List (α × β)) (k : α) (v : β) :
    List (α × β) :=
  if l.any (fun p => p.1 = k) then
    l.map (fun p => if p.1 = k then (k, v) else p)
  else
    l ++ [(k, v)]

/-- `Set.add`: append when absent, otherwise leave the list unchanged. -/
def setAdd (l : List String) (x : String) : List String :=
  if l.contains x then l else l ++ [x]

/-! ## Tokenizer (src/server/src/textProcessor/tokenizer.ts) -/

/-- The apostrophe character deleted by `input.replace(/'/g, "")`. -/
def apostrophe : Char := Char.ofNat 39

/-- One character class of the extraction regex `[a-zA-Z0-9+#.]`,
stated on code points (97–122 is `a`–`z`, 65–90 is `A`–`Z`, 48–57 is
`0`–`9`, 43 `+`, 35 `#`, 46 `.`). -/
def isTokenChar (c : Char) : Bool :=
  (97 ≤ c.toNat && c.toNat ≤ 122) ||
  (65 ≤ c.toNat && c.toNat ≤ 90) ||
  (48 ≤ c.toNat && c.toNat ≤ 57) ||
  c.toNat = 43 || c.toNat = 35 || c.toNat = 46

/-- The lowercase character class `[a-z0-9+#.]` of the spec's token
grammar `^[a-z0-9+#.]+$`. -/
def isLowerTokenChar (c : Char) : Bool :=
  (97 ≤ c.toNat && c.toNat ≤ 122) ||
  (48 ≤ c.toNat && c.toNat ≤ 57) ||
  c.toNat = 43 || c.toNat = 35 || c.toNat = 46

/-- Maximal runs of characters satisfying `p`, as produced by a global
regex match `/(p)+/g`; `acc` holds the (reversed) run in progress. -/
def runsAux (p : Char → Bool) : List Char → List Char → List (List Char)
  | [], acc => if acc.isEmpty then [] else [acc.reverse]
  | c :: rest, acc =>
    if p c then runsAux p rest (c :: acc)
    else if acc.isEmpty then runsAux p rest []
    else acc.reverse :: runsAux p rest []

/-- All maximal runs of characters satisfying `p` in a character list. -/
def maximalRuns (p : Char → Bool) (cs : List Char) : List (List Char) :=
  runsAux p cs []

/-- `tokenizer(input)`: delete apostrophes, lowercase, extract maximal
runs of `[a-zA-Z0-9+#.]`, and drop tokens of length ≤ 1. -/
def tokenizer (input : String) : List String :=
  let output := input.data.filter (fun c => c ≠ apostrophe)
  let lowered := output.map Char.toLower
  let matched := (maximalRuns isTokenChar lowered).map (fun r => String.mk r)
  matched.filter (fun word => word.length > 1)

/-! ## Stop words (src/server/src/textProcessor/stopWords.ts) -/

/-- The `STOP_WORDS` set, verbatim from the source. -/
def STOP_WORDS : List String :=
  ["a", "about", "above", "after", "again", "against", "all", "am", "an",
   "and", "any", "are", "as", "at", "be", "because", "been", "before",
   "being", "below", "between", "both", "but", "by", "can", "did", "do",
   "does", "doing", "don", "down", "during", "each", "few", "for", "from",
   "further", "had", "has", "have", "having", "he", "her", "here", "hers",
   "herself", "him", "himself", "his", "how", "i", "if", "in", "into",
   "is", "it", "its", "itself", "just", "me", "more", "most", "my",
   "myself", "no", "nor", "not", "now", "of", "off", "on", "once", "only",
   "or", "other", "our", "ours", "ourselves", "out", "over", "own",
   "same", "she", "should", "so", "some", "such", "than", "that", "the",
   "their", "theirs", "them", "themselves", "then", "there", "these",
   "they", "this", "those", "through", "to", "too", "under", "until",
   "up", "very", "was", "we", "were", "what", "when", "where", "which",
   "while", "who", "whom", "why", "will", "with", "would", "you", "your",
   "yours", "yourself", "yourselves"]

/-- `removeStopWords(tokens)`: drop every token in `STOP_WORDS`. -/
def removeStopWords (tokens : List String) : List String :=
  tokens.filter (fun token => ¬ STOP_WORDS.contains token)

/-! ## Inverted index (InvertedIndex in the server source) -/

/-- A document record `{id, content, title?}`. -/
structure Document where
  id : String
  content : String
  title : Option String
deriving Repr, DecidableEq

/-- A posting entry `{docIds, tf, df}` for one term. -/
structure IndexEntry where
  docIds : List String
  tf : List (String × Nat)
  df : Nat
deriving Repr, DecidableEq

/-- A search result `{documentId, score, termFrequency}`. -/
structure SearchResult where
  documentId : String
  score : Nat
  termFrequency : Nat
deriving Repr, DecidableEq

/-- The `InvertedIndex` instance state: term index, document store,
and the running `totalDocs` counter. -/
structure InvertedIndex where
  index : List (String × IndexEntry)
  documents : List (String × Document)
  totalDocs : Nat
deriving Repr, DecidableEq

/-- The freshly constructed, empty `InvertedIndex`. -/
def InvertedIndex.empty : InvertedIndex :=
  { index := [], documents := [], totalDocs := 0 }

/-- `` `${doc.title} ${doc.content}` `` when a title is present, else
`doc.content`. -/
def fullTextOf (doc : Document) : String :=
  match doc.title with
  | some t => t ++ " " ++ doc.content
  | none => doc.content

/-- Step 4 of `addDocument`: count term frequencies of the token list
into an insertion-ordered map. -/
def countTerms (tokens : List String) : List (String × Nat) :=
  tokens.foldl
    (fun termCounts token =>
      alistSet termCounts token ((alistGet termCounts token).getD 0 + 1))
    []

/-- The body of `addDocument`'s step-5 loop for one `[term, count]`
pair: fetch-or-create the entry, set `tf[doc.id] = count`, add `doc.id`
to `docIds`, and recompute `df = docIds.size`. -/
def indexStep (docId : String) (index : List (String × IndexEntry))
    (tc : String × Nat) : List (String × IndexEntry) :=
  let entry := (alistGet index tc.1).getD { docIds := [], tf := [], df := 0 }
  let tf' := alistSet entry.tf docId tc.2
  let docIds' := setAdd entry.docIds docId
  alistSet index tc.1 { docIds := docIds', tf := tf', df := docIds'.length }

/-- `addDocument(doc)`: tokenize + stop-word filter the combined text,
count local term frequencies, update the index, store the document, and
increment `totalDocs`. -/
def InvertedIndex.addDocument (s : InvertedIndex) (doc : Document) :
    InvertedIndex :=
  let tokens := removeStopWords (tokenizer (fullTextOf doc))
  let termCounts := countTerms tokens
  { index := termCounts.foldl (indexStep doc.id) s.index
    documents := alistSet s.documents doc.id doc
    totalDocs := s.totalDocs + 1 }

/-- Step 2–3 of `search`: fold one query term into the accumulated
`docId -> {tf, matches}` score map. -/
def scoreStep (index : List (String × IndexEntry))
    (docScores : List (String × (Nat × Nat))) (term : String) :
    List (String × (Nat × Nat)) :=
  match alistGet index term with
  | none => docScores
  | some entry =>
    entry.tf.foldl
      (fun scores p =>
        let existing := (alistGet scores p.1).getD (0, 0)
        alistSet scores p.1 (existing.1 + p.2, existing.2 + 1))
      docScores

/-- `search(query)`: tokenize + stop-word filter; return `[]` for an
empty term list; accumulate per-document term-frequency sums; sort by
score descending.  JavaScript `Array.prototype.sort` is required to be
stable, and a stable sort's output is determined by the comparator, so
the stable `List.insertionSort` models `sort((a, b) => b.score - a.score)`
faithfully. -/
def InvertedIndex.search (s : InvertedIndex) (query : String) :
    List SearchResult :=
  let queryTokens := removeStopWords (tokenizer query)
  if queryTokens.isEmpty then []
  else
    let docScores := queryTokens.foldl (scoreStep s.index) []
    let results := docScores.map
      (fun p => { documentId := p.1, score := p.2.1, termFrequency := p.2.1 })
    results.insertionSort (fun a b => b.score ≤ a.score)

/-- Folding a whole document list into the empty index. -/
def buildIndex (docs : List Document) : InvertedIndex :=
  docs.foldl InvertedIndex.addDocument InvertedIndex.empty

/-- The spec's worked example document
`{id:"1", title:"Python Guide", content:"Python is great"}`. -/
def exampleDoc : Document :=
  { id := "1", content := "Python is great", title := some "Python Guide" }

/-- The posting-entry invariant of the spec: `df == |docIds|` and the
key set of the `tf` map is a subset of `docIds`. -/
def entryOk (e : IndexEntry) : Bool :=
  (e.df = e.docIds.length) && e.tf.all (fun p => e.docIds.contains p.1)

/-- `entryOk` for every posting entry of the index. -/
def indexOk (s : InvertedIndex) : Bool :=
  s.index.all (fun p => entryOk p.2)

/-! ## Prefix trie (src/server/src/autocomplete/trie.ts) -/

/-- A `TrieNode`: insertion-ordered `children` map and `isEndOfWord`. -/
inductive TrieNode where
  | mk (children : List (Char × TrieNode)) (isEndOfWord : Bool)
deriving Repr

/-- The `children` field. -/
def TrieNode.children : TrieNode → List (Char × TrieNode)
  | .mk c _ => c

/-- The `isEndOfWord` field. -/
def TrieNode.isEndOfWord : TrieNode → Bool
  | .mk _ e => e

/-- `new TrieNode()`: empty children, not end of word. -/
def TrieNode.empty : TrieNode := .mk [] false

/-- `Trie.insert(word)` on the subtree rooted at `t`: walk or create one
child per character, then mark the final node as end of word. -/
def insertAux : List Char → TrieNode → TrieNode
  | [], t => .mk t.children true
  | c :: rest, t =>
    match alistGet t.children c with
    | some child => .mk (alistSet t.children c (insertAux rest child)) t.isEndOfWord
    | none => .mk (t.children ++ [(c, insertAux rest TrieNode.empty)]) t.isEndOfWord

/-- `Trie.insert` on a whole word. -/
def Trie.insert (t : TrieNode) (word : String) : TrieNode :=
  insertAux word.data t

/-- The prefix-walking loop of `getSuggestions`: follow one child per
prefix character; `none` when a character is missing. -/
def walkPrefix : TrieNode → List Char → Option TrieNode
  | t, [] => some t
  | t, c :: rest =>
    match alistGet t.children c with
    | none => none
    | some child => walkPrefix child rest

mutual
/-- The recursive `collectWords(node, currentWord)` closure: return
early once `limit` results are collected, append `currentWord` at a
terminal node, then descend into the children in insertion order. -/
def collectWords (limit : Nat) : TrieNode → List Char → List (List Char) →
    List (List Char)
  | .mk children isEnd, currentWord, results =>
    if limit ≤ results.length then results
    else
      let results1 := if isEnd then results ++ [currentWord] else results
      collectList limit children currentWord results1

/-- The `for (const [char, childNode] of node.children)` loop of
`collectWords`, threading the results accumulator left to right. -/
def collectList (limit : Nat) : List (Char × TrieNode) → List Char →
    List (List Char) → List (List Char)
  | [], _, results => results
  | (c, child) :: rest, currentWord, results =>
    collectList limit rest currentWord
      (collectWords limit child (currentWord ++ [c]) results)
end

/-- `Trie.getSuggestions(prefix, limit)`: walk to the prefix node
(empty result when the walk fails), then DFS-collect up to `limit`
complete words. -/
def Trie.getSuggestions (t : TrieNode) (pre : String) (limit : Nat) :
    List String :=
  match walkPrefix t pre.data with
  | none => []
  | some curr => (collectWords limit curr pre.data []).map (fun w => String.mk w)

/-- Inserting a list of words into a fresh trie. -/
def buildTrie (ws : List String) : TrieNode :=
  ws.foldl Trie.insert TrieNode.empty

mutual
/-- Specification helper: the full DFS word list below a node, i.e.
`collectWords` with an inexhaustible limit. -/
def wordsUnder : TrieNode → List Char → List (List Char)
  | .mk children isEnd, currentWord =>
    (if isEnd then [currentWord] else []) ++ wordsUnderList children currentWord

/-- `wordsUnder` over a children list in insertion order. -/
def wordsUnderList : List (Char × TrieNode) → List Char → List (List Char)
  | [], _ => []
  | (c, child) :: rest, currentWord =>
    wordsUnder child (currentWord ++ [c]) ++ wordsUnderList rest currentWord
end

mutual
/-- Well-formedness: every children map in the trie has no duplicate
keys (true of every JavaScript `Map`). -/
def TrieNode.wf : TrieNode → Prop
  | .mk children _ => (children.map Prod.fst).Nodup ∧ TrieNode.wfList children

/-- `TrieNode.wf` for every node of a children list. -/
def TrieNode.wfList : List (Char × TrieNode) → Prop
  | [] => True
  | (_, child) :: rest => TrieNode.wf child ∧ TrieNode.wfList rest
end

/-! ## Levenshtein distance (src/server/src/utils/levenshtein.utils.ts)

The source fills a `(m+1) × (n+1)` table row by row: row `i` depends
only on row `i-1`, so the embedding carries one previous row at a
time.  `rowAux` computes cells `dp[i][1..n]` from the previous row and
`levRows` iterates over the rows. -/

/-- Inner loop `for j = 1..n`: `prev` holds `dp[i-1][j-1], …, dp[i-1][n]`
and `left` holds `dp[i][j-1]`; emits `dp[i][j], …, dp[i][n]`. -/
def rowAux (c : Char) : List Char → List Nat → Nat → List Nat
  | [], _, _ => []
  | b :: bs, prev, left =>
    let diag := prev.headD 0
    let up := (prev.drop 1).headD 0
    let cell := if c = b then diag else 1 + min up (min left diag)
    cell :: rowAux c bs (prev.drop 1) cell

/-- Outer loop `for i = 1..m`: build row `i` (base case `dp[i][0] = i`
followed by `rowAux`) from row `i-1`. -/
def levRows (bs : List Char) : List Char → List Nat → Nat → List Nat
  | [], prev, _ => prev
  | a :: as, prev, i => levRows bs as (i :: rowAux a bs prev i) (i + 1)

/-- `levenshteinDistance(str1, str2)`: return 0 when either string is
empty (the guard `if (!str1) … if (!str2) …`), otherwise run the
dynamic program from base row `dp[0][j] = j` and return `dp[m][n]`. -/
def levenshteinDistance (str1 str2 : String) : Nat :=
  if str1.data.isEmpty then 0
  else if str2.data.isEmpty then 0
  else
    let row0 := List.range (str2.data.length + 1)
    let final := levRows str2.data str1.data row0 1
    final.getD str2.data.length 0

/-- The classic Levenshtein dynamic program as the spec words it:
base cases `dp[i][0] = i`, `dp[0][j] = j`, transition
`dp[i][j] = dp[i-1][j-1]` on equal characters, else
`1 + min(delete, insert, substitute)`.  Reference definition used to
state the refinement claim about `levenshteinDistance`. -/
def dpClassic (a b : List Char) : Nat → Nat → Nat
  | i, 0 => i
  | 0, j + 1 => j + 1
  | i + 1, j + 1 =>
    if a.getD i (Char.ofNat 0) = b.getD j (Char.ofNat 0) then
      dpClassic a b i j
    else
      1 + min (dpClassic a b i (j + 1))
          (min (dpClassic a b (i + 1) j) (dpClassic a b i j))
termination_by i j => (i, j)

/-! ## findClosestTerm (src/server/src/utils/levenshtein.utils.ts)

`findClosestTerm` reads the index vocabulary through
`invertedIndex.getSortedTerms()` and per-term document frequencies
through `invertedIndex.getIndexEntry(term)?.df`; the embedding takes
that vocabulary as an explicit `(term, df)` association list in
iteration order. -/

/-- JavaScript `t[0] === query[0]` on strings: both first characters
exist and are equal, or both strings are empty (`undefined === undefined`). -/
def firstCharEq (t q : String) : Bool :=
  match t.data, q.data with
  | [], [] => true
  | tc :: _, qc :: _ => tc = qc
  | _, _ => false

/-- The loop state of `findClosestTerm`: `closestTerm` (initially
`null`), `minDistance` (`none` models the initial `Infinity`), and
`maxDf`. -/
structure FCState where
  closestTerm : Option String
  minDistance : Option Nat
  maxDf : Nat
deriving Repr, DecidableEq

/-- `distance < minDistance` with `minDistance` possibly `Infinity`. -/
def ltInf (d : Nat) (m : Option Nat) : Bool :=
  match m with
  | none => true
  | some v => d < v

/-- `distance === minDistance` with `minDistance` possibly `Infinity`. -/
def eqInf (d : Nat) (m : Option Nat) : Bool :=
  match m with
  | none => false
  | some v => d = v

/-- One iteration of `findClosestTerm`'s candidate loop. -/
def fcStep (vocab : List (String × Nat)) (query : String)
    (st : FCState) (term : String) : FCState :=
  let distance := levenshteinDistance query term
  let documentFrec := (alistGet vocab term).getD 0
  if ltInf distance st.minDistance ||
      (eqInf distance st.minDistance && decide (st.maxDf < documentFrec)) then
    { closestTerm := some term, minDistance := some distance,
      maxDf := documentFrec }
  else st

/-- The candidate list: vocabulary terms sharing the query's first
character, in vocabulary order. -/
def validCandidates (vocab : List (String × Nat)) (query : String) :
    List String :=
  (vocab.map Prod.fst).filter (fun t => firstCharEq t query)

/-- The final return of `findClosestTerm`:
`if (minDistance <= 3 && closestTerm) return closestTerm; return null`
(JavaScript truthiness of `closestTerm` rejects `null` and the empty
string). -/
def fcFinal (st : FCState) : Option String :=
  match st.minDistance, st.closestTerm with
  | some d, some t => if d ≤ 3 ∧ t ≠ "" then some t else none
  | _, _ => none

/-- `findClosestTerm(query)`: scan the candidates, tracking minimum
distance with a document-frequency tie-break, and return the closest
term only when the minimum distance is ≤ 3. -/
def findClosestTerm (vocab : List (String × Nat)) (query : String) :
    Option String :=
  fcFinal ((validCandidates vocab query).foldl (fcStep vocab query)
    { closestTerm := none, minDistance := none, maxDf := 0 })

/-- The document frequency `getIndexEntry(term)?.df || 0` seen through
the vocabulary list. -/
def dfOf (vocab : List (String × Nat)) (t : String) : Nat :=
  (alistGet vocab t).getD 0

/-- Loop invariant of `findClosestTerm`'s candidate scan: after
processing `done`, either nothing was processed and the state is the
initial one, or the state tracks a processed term of minimum distance
whose document frequency is maximal among the minimum-distance terms. -/
def fcInv (vocab : List (String × Nat)) (q : String) (done : List String)
    (st : FCState) : Prop :=
  (done = [] ∧ st = { closestTerm := none, minDistance := none, maxDf := 0 }) ∨
  (∃ t, t ∈ done ∧ st.closestTerm = some t ∧
    st.minDistance = some (levenshteinDistance q t) ∧
    st.maxDf = dfOf vocab t ∧
    (∀ c ∈ done, levenshteinDistance q t ≤ levenshteinDistance q c) ∧
    (∀ c ∈ done, levenshteinDistance q c = levenshteinDistance q t →
      dfOf vocab c ≤ dfOf vocab t))

/-! ## MinHeap (the `MinHeap` class of the server source)

The heap array is a `List`; `push` / `bubbleUp` terminate and are
embedded with an iteration budget of `index + 1` which the halving
parent walk can never exhaust.  `bubbleDown` in the source is
`while (true) {}` — a loop whose condition is the literal `true` and
whose body is empty — so it is embedded on fuel, returning `none` when
the fuel runs out; `pop` on a heap of length ≥ 2 calls it. -/

/-- Swap `heap[i]` and `heap[j]`. -/
def heapSwap {α : Type} [Inhabited α] (h : List α) (i j : Nat) : List α :=
  (h.set i (h.getD j default)).set j (h.getD i default)

/-- The `bubbleUp` loop: `while (index > 0)` with
`parentIndex = Math.floor(index / 1 / 2)` (i.e. `index / 2` — note the
source does not subtract 1 first), stopping once the element compares
`≥ 0` against its parent.  `iters` is the iteration budget. -/
def bubbleUpIter {α : Type} [Inhabited α] (cmp : α → α → Int) :
    Nat → List α → Nat → List α
  | 0, h, _ => h
  | iters + 1, h, index =>
    if index = 0 then h
    else
      let parentIndex := index / 2
      if 0 ≤ cmp (h.getD index default) (h.getD parentIndex default) then h
      else bubbleUpIter cmp iters (heapSwap h index parentIndex) parentIndex

/-- `bubbleUp(index)`: the parent index halves every iteration, so
`index + 1` iterations always suffice; the budget is never exhausted. -/
def bubbleUp {α : Type} [Inhabited α] (cmp : α → α → Int) (h : List α)
    (index : Nat) : List α :=
  bubbleUpIter cmp (index + 1) h index

/-- `push(element)`: append, then bubble up from the last index. -/
def MinHeap.push {α : Type} [Inhabited α] (cmp : α → α → Int) (h : List α)
    (element : α) : List α :=
  let h' := h ++ [element]
  bubbleUp cmp h' (h'.length - 1)

/-- `peek()`: the root, or `undefined` on an empty heap. -/
def MinHeap.peek {α : Type} (h : List α) : Option α :=
  h.head?

/-- The `bubbleDown` loop body, verbatim: `while (true) {}`.  Each
fuel step runs one iteration of a loop that never changes state and
never exits; `none` means the fuel was exhausted with the loop still
running. -/
def bubbleDownFuel {α : Type} (fuel : Nat) (h : List α) (index : Nat) :
    Option (List α) :=
  match fuel with
  | 0 => none
  | fuel + 1 =>
    if true then bubbleDownFuel fuel h index else some h

/-- `pop()`: `undefined` on an empty heap, the single element on a
one-element heap; otherwise save the root, move the last element to
the root and `bubbleDown(0)`.  Returns the popped element and the new
heap, or `none` when `bubbleDown` exhausts its fuel. -/
def MinHeap.popFuel {α : Type} [Inhabited α] (cmp : α → α → Int)
    (fuel : Nat) (h : List α) : Option (Option α × List α) :=
  if h.length = 0 then some (none, h)
  else if h.length = 1 then some (h.getLast?, h.dropLast)
  else
    let min := h.getD 0 default
    let last := h.getLastD default
    let h' := h.dropLast.set 0 last
    (bubbleDownFuel fuel h' 0).map (fun h2 => (some min, h2))

/-- The default comparator `(a, b) => a - b` on numbers. -/
def cmpNum (a b : Int) : Int := a - b

/-! ## Autocomplete top-K (SearchService.autocomplete) -/

/-- A `{term, score}` candidate of the autocomplete merge. -/
structure ScoredItem where
  term : String
  score : Int
deriving Repr, DecidableEq

instance : Inhabited ScoredItem := ⟨⟨"", 0⟩⟩

/-- The heap comparator `(a, b) => b.score - a.score` passed to
`new MinHeap` by `autocomplete`. -/
def cmpScored (a b : ScoredItem) : Int := b.score - a.score

/-- The top-K selection loop of `autocomplete`: push while below
`limit`, otherwise pop-and-push when the candidate's score beats
`peek()?.score ?? 0`.  `none` when a `pop` diverges. -/
def topKLoop (fuel limit : Nat) :
    List ScoredItem → List ScoredItem → Option (List ScoredItem)
  | heap, [] => some heap
  | heap, item :: rest =>
    if heap.length < limit then
      topKLoop fuel limit (MinHeap.push cmpScored heap item) rest
    else if ((MinHeap.peek heap).map ScoredItem.score).getD 0 < item.score then
      match MinHeap.popFuel cmpScored fuel heap with
      | none => none
      | some (_, h') => topKLoop fuel limit (MinHeap.push cmpScored h' item) rest
    else topKLoop fuel limit heap rest

/-- The drain loop `while (topKHeap.size > 0) topKItems.push(pop()!)`,
bounded by an iteration budget. -/
def drainFuel (fuel : Nat) :
    Nat → List ScoredItem → List ScoredItem → Option (List ScoredItem)
  | 0, heap, acc => if heap.length = 0 then some acc else none
  | iters + 1, heap, acc =>
    if heap.length = 0 then some acc
    else
      match MinHeap.popFuel cmpScored fuel heap with
      | none => none
      | some (popped, h') => drainFuel fuel iters h' (acc ++ popped.toList)

/-- The top-K stage of `autocomplete` on an already-merged candidate
list: heap selection, drain, final descending stable sort, and
projection to the terms.  `none` when any heap operation diverges. -/
def autocompleteTopK (fuel : Nat) (scored : List ScoredItem)
    (limit : Nat) : Option (List String) :=
  match topKLoop fuel limit [] scored with
  | none => none
  | some heap =>
    match drainFuel fuel (heap.length + 1) heap [] with
    | none => none
    | some topKItems =>
      some ((topKItems.insertionSort (fun a b => b.score ≤ a.score)).map
        (fun s => s.term))

/-! # Theorems

## Character-level facts about `Char.toLower` -/

theorem toNat_ofNat_valid {n : Nat} (h : n.isValidChar) :
    (Char.ofNat n).toNat = n := by
  rw [Char.ofNat, dif_pos h]
  rfl

theorem toLower_toNat (c : Char) :
    (Char.toLower c).toNat =
      if 65 ≤ c.toNat ∧ c.toNat ≤ 90 then c.toNat + 32 else c.toNat := by
  by_cases h : 65 ≤ c.toNat ∧ c.toNat ≤ 90
  · rw [if_pos h]
    show (Char.toLower c).toNat = _
    unfold Char.toLower
    rw [if_pos (by omega : c.toNat ≥ 65 ∧ c.toNat ≤ 90)]
    exact toNat_ofNat_valid (Or.inl (by omega))
  · rw [if_neg h]
    unfold Char.toLower
    rw [if_neg (by omega : ¬(c.toNat ≥ 65 ∧ c.toNat ≤ 90))]

theorem toLower_not_upper (c : Char) :
    ¬(65 ≤ (Char.toLower c).toNat ∧ (Char.toLower c).toNat ≤ 90) := by
  rw [toLower_toNat]
  split <;> omega

theorem isLowerTokenChar_of_isTokenChar_toLower (c : Char)
    (h : isTokenChar (Char.toLower c) = true) :
    isLowerTokenChar (Char.toLower c) = true := by
  have hu := toLower_not_upper c
  unfold isTokenChar at h
  unfold isLowerTokenChar
  simp only [Bool.or_eq_true, Bool.and_eq_true, decide_eq_true_eq] at h ⊢
  omega

/-! ## Runs extracted by the tokenizer regex -/

theorem runsAux_mem (p : Char → Bool) :
    ∀ (cs acc r : List Char), r ∈ runsAux p cs acc →
      ((∀ c ∈ acc, p c = true) → ∀ c ∈ r, p c = true) ∧
      (∀ c ∈ r, c ∈ cs ∨ c ∈ acc) ∧ r ≠ [] := by
  intro cs
  induction cs with
  | nil =>
    intro acc r hr
    unfold runsAux at hr
    split at hr
    · simp at hr
    · next hne =>
      rw [List.mem_singleton] at hr
      subst hr
      refine ⟨fun hacc c hc => hacc c (List.mem_reverse.mp hc),
        fun c hc => Or.inr (List.mem_reverse.mp hc), ?_⟩
      simp only [ne_eq, List.reverse_eq_nil_iff]
      intro h
      rw [h] at hne
      simp at hne
  | cons c0 rest ih =>
    intro acc r hr
    unfold runsAux at hr
    by_cases hp : p c0 = true
    · rw [if_pos hp] at hr
      obtain ⟨h1, h2, h3⟩ := ih (c0 :: acc) r hr
      refine ⟨?_, ?_, h3⟩
      · intro hacc d hd
        refine h1 ?_ d hd
        intro e he
        rcases List.mem_cons.mp he with rfl | he'
        · exact hp
        · exact hacc e he'
      · intro d hd
        rcases h2 d hd with h | h
        · exact Or.inl (List.mem_cons_of_mem _ h)
        · rcases List.mem_cons.mp h with rfl | h'
          · exact Or.inl (List.mem_cons_self _ _)
          · exact Or.inr h'
    · rw [if_neg hp] at hr
      by_cases hacc : acc.isEmpty = true
      · rw [if_pos hacc] at hr
        obtain ⟨h1, h2, h3⟩ := ih [] r hr
        refine ⟨fun _ => h1 (by simp), ?_, h3⟩
        intro d hd
        rcases h2 d hd with h | h
        · exact Or.inl (List.mem_cons_of_mem _ h)
        · simp at h
      · rw [if_neg hacc] at hr
        rcases List.mem_cons.mp hr with rfl | hr'
        · refine ⟨fun h d hd => h d (List.mem_reverse.mp hd),
            fun d hd => Or.inr (List.mem_reverse.mp hd), ?_⟩
          simp only [ne_eq, List.reverse_eq_nil_iff]
          intro h
          rw [h] at hacc
          simp at hacc
        · obtain ⟨h1, h2, h3⟩ := ih [] r hr'
          refine ⟨fun _ => h1 (by simp), ?_, h3⟩
          intro d hd
          rcases h2 d hd with h | h
          · exact Or.inl (List.mem_cons_of_mem _ h)
          · simp at h

theorem tokenizer_token_chars (input : String) (t : String)
    (ht : t ∈ tokenizer input) :
    2 ≤ t.length ∧ t.data ≠ [] ∧ ∀ c ∈ t.data, isLowerTokenChar c = true := by
  unfold tokenizer at ht
  simp only [List.mem_filter, List.mem_map] at ht
  obtain ⟨⟨r, hr, rfl⟩, hlen⟩ := ht
  obtain ⟨h1, h2, h3⟩ := runsAux_mem isTokenChar _ [] r hr
  have hchars : ∀ c ∈ r, isLowerTokenChar c = true := by
    intro c hc
    have hp : isTokenChar c = true := h1 (by simp) c hc
    have hmem : c ∈ (input.data.filter (fun d => d ≠ apostrophe)).map
        Char.toLower := by
      rcases h2 c hc with h | h
      · exact h
      · simp at h
    obtain ⟨c0, _, rfl⟩ := List.mem_map.mp hmem
    exact isLowerTokenChar_of_isTokenChar_toLower c0 hp
  have hdata : (String.mk r).data = r := rfl
  refine ⟨?_, ?_, ?_⟩
  · have h4 : (String.mk r).length = r.length := rfl
    have h5 : 1 < (String.mk r).length := by simpa using hlen
    omega
  · rw [hdata]
    exact h3
  · rw [hdata]
    exact hchars

/-- C8: every token produced by `tokenizer` consists only of characters
of the class `[a-z0-9+#.]` and has length at least 2 (so it matches
`^[a-z0-9+#.]+$`), and on the documented example the pipeline—delete
apostrophes, lowercase, extract maximal runs, drop length-≤1
tokens—yields `["hello","world","hows","it","going"]`. -/
theorem C8_tokenizer_wellformed :
    (∀ (input : String), ∀ t ∈ tokenizer input,
        2 ≤ t.length ∧ t.data ≠ [] ∧ ∀ c ∈ t.data, isLowerTokenChar c = true) ∧
    tokenizer "Hello World! How's it going?" =
      ["hello", "world", "hows", "it", "going"] :=
  ⟨fun input t ht => tokenizer_token_chars input t ht, by decide⟩

/-- Witness for C8 at the concrete input: the token `"hello"` of the
example sentence satisfies the conclusion. -/
theorem C8_tokenizer_wellformed_witness :
    2 ≤ ("hello" : String).length ∧ ("hello" : String).data ≠ [] ∧
      ∀ c ∈ ("hello" : String).data, isLowerTokenChar c = true :=
  C8_tokenizer_wellformed.1 "Hello World! How's it going?" "hello" (by decide)

/-! ## Association-list and set-list lemmas -/

theorem mem_alistSet {α β : Type} [DecidableEq α] {l : List (α × β)}
    {k : α} {v : β} {p : α × β} (hp : p ∈ alistSet l k v) :
    p = (k, v) ∨ p ∈ l := by
  unfold alistSet at hp
  split at hp
  · obtain ⟨q, hq, hq2⟩ := List.mem_map.mp hp
    by_cases hqk : q.1 = k
    · rw [if_pos hqk] at hq2
      exact Or.inl hq2.symm
    · rw [if_neg hqk] at hq2
      exact Or.inr (hq2 ▸ hq)
  · rcases List.mem_append.mp hp with h | h
    · exact Or.inr h
    · exact Or.inl (by simpa using h)

theorem alistGet_mem {α β : Type} [DecidableEq α] {l : List (α × β)}
    {k : α} {v : β} (h : alistGet l k = some v) : (k, v) ∈ l := by
  unfold alistGet at h
  cases hf : l.find? (fun p => p.1 = k) with
  | none => rw [hf] at h; simp at h
  | some q =>
    rw [hf] at h
    simp at h
    have hq : q.1 = k := by simpa using List.find?_some hf
    have hmem := List.mem_of_find?_eq_some hf
    obtain ⟨q1, q2⟩ := q
    rw [← hq, ← h]
    exact hmem

theorem mem_setAdd {l : List String} {x y : String} :
    x ∈ setAdd l y ↔ x ∈ l ∨ x = y := by
  unfold setAdd
  split
  · next h =>
    constructor
    · exact Or.inl
    · rintro (hx | rfl)
      · exact hx
      · simpa using h
  · simp

theorem keys_alistSet {α β : Type} [DecidableEq α] (l : List (α × β))
    (k : α) (v : β) :
    (alistSet l k v).map Prod.fst =
      if l.any (fun p => p.1 = k) then l.map Prod.fst
      else l.map Prod.fst ++ [k] := by
  unfold alistSet
  split
  · rw [List.map_map]
    apply List.map_congr_left
    intro q _
    by_cases hq : q.1 = k
    · simp [hq]
    · simp [hq]
  · simp

theorem length_alistSet {α β : Type} [DecidableEq α] (l : List (α × β))
    (k : α) (v : β) :
    (alistSet l k v).length =
      if l.any (fun p => p.1 = k) then l.length else l.length + 1 := by
  unfold alistSet
  split
  · simp
  · simp

theorem any_key_iff {α β : Type} [DecidableEq α] (l : List (α × β)) (k : α) :
    l.any (fun p => p.1 = k) = true ↔ k ∈ l.map Prod.fst := by
  rw [List.any_eq_true]
  simp only [decide_eq_true_eq, List.mem_map]

theorem nodup_keys_alistSet {α β : Type} [DecidableEq α]
    {l : List (α × β)} (k : α) (v : β)
    (h : (l.map Prod.fst).Nodup) : ((alistSet l k v).map Prod.fst).Nodup := by
  rw [keys_alistSet]
  split
  · exact h
  · next hany =>
    have hk : k ∉ l.map Prod.fst := fun hmem =>
      hany ((any_key_iff l k).mpr hmem)
    refine h.append (List.nodup_singleton k) ?_
    intro a ha hb
    rw [List.mem_singleton] at hb
    subst hb
    exact hk ha

/-! ## C2: the inverted-index example behaviour -/

theorem search_empty_tokens (s : InvertedIndex) (q : String)
    (h : removeStopWords (tokenizer q) = []) : s.search q = [] := by
  unfold InvertedIndex.search
  rw [h]
  rfl

/-- C2: on the index built from
`{id:"1", title:"Python Guide", content:"Python is great"}`,
`search("python")` returns exactly one result with document id `"1"`
and score 2, `search("nonexistentterm")` returns `[]`, and every query
whose tokenize + stop-word pipeline yields no terms returns `[]`. -/
theorem C2_invertedIndex_example :
    (buildIndex [exampleDoc]).search "python" =
      [{ documentId := "1", score := 2, termFrequency := 2 }] ∧
    (buildIndex [exampleDoc]).search "nonexistentterm" = [] ∧
    ∀ (s : InvertedIndex) (q : String),
      removeStopWords (tokenizer q) = [] → s.search q = [] :=
  ⟨by decide, by decide, search_empty_tokens⟩

/-- Witness for C2: the empty query has no pipeline terms, and search
on the example index returns `[]` for it. -/
theorem C2_invertedIndex_example_witness :
    (buildIndex [exampleDoc]).search "" = [] :=
  C2_invertedIndex_example.2.2 _ "" (by decide)

/-! ## C3: the posting-entry invariant -/

theorem entryOk_getD (index : List (String × IndexEntry)) (term : String)
    (h : index.all (fun p => entryOk p.2) = true) :
    entryOk ((alistGet index term).getD
      { docIds := [], tf := [], df := 0 }) = true := by
  cases hg : alistGet index term with
  | none => rfl
  | some e =>
    simpa using List.all_eq_true.mp h _ (alistGet_mem hg)

theorem indexOk_indexStep (docId : String) (index : List (String × IndexEntry))
    (tc : String × Nat) (h : index.all (fun p => entryOk p.2) = true) :
    (indexStep docId index tc).all (fun p => entryOk p.2) = true := by
  unfold indexStep
  rw [List.all_eq_true]
  intro p hp
  rcases mem_alistSet hp with rfl | hpmem
  · show entryOk _ = true
    set entry := (alistGet index tc.1).getD { docIds := [], tf := [], df := 0 }
      with hentry
    have hok : entryOk entry = true := entryOk_getD index tc.1 h
    unfold entryOk at hok ⊢
    simp only [Bool.and_eq_true, decide_eq_true_eq, List.all_eq_true] at hok ⊢
    refine ⟨by trivial, ?_⟩
    intro q hq
    have hmem : q.1 ∈ setAdd entry.docIds docId := by
      rcases mem_alistSet hq with rfl | hqmem
      · exact mem_setAdd.mpr (Or.inr rfl)
      · have := hok.2 q hqmem
        simp only [decide_eq_true_eq] at this
        exact mem_setAdd.mpr (Or.inl (by simpa using this))
    simpa using hmem
  · exact List.all_eq_true.mp h p hpmem

theorem indexOk_foldl_indexStep (docId : String) :
    ∀ (tcs : List (String × Nat)) (index : List (String × IndexEntry)),
      index.all (fun p => entryOk p.2) = true →
      (tcs.foldl (indexStep docId) index).all (fun p => entryOk p.2) = true := by
  intro tcs
  induction tcs with
  | nil => intro index h; exact h
  | cons tc rest ih =>
    intro index h
    exact ih _ (indexOk_indexStep docId index tc h)

theorem indexOk_addDocument (s : InvertedIndex) (doc : Document)
    (h : indexOk s = true) : indexOk (s.addDocument doc) = true := by
  unfold indexOk at h ⊢
  unfold InvertedIndex.addDocument
  exact indexOk_foldl_indexStep doc.id _ s.index h

theorem indexOk_foldl_addDocument :
    ∀ (docs : List Document) (s : InvertedIndex), indexOk s = true →
      indexOk (docs.foldl InvertedIndex.addDocument s) = true := by
  intro docs
  induction docs with
  | nil => intro s h; exact h
  | cons d rest ih =>
    intro s h
    exact ih _ (indexOk_addDocument s d h)

/-- C3: starting from the empty inverted index, after any sequence of
`addDocument` calls every posting entry satisfies `df == |docIds|` and
the key set of its `tf` map is a subset of `docIds`. -/
theorem C3_posting_invariant (docs : List Document) :
    indexOk (buildIndex docs) = true :=
  indexOk_foldl_addDocument docs InvertedIndex.empty rfl

/-! ## C10: totalDocs versus the document store -/

theorem foldl_addDocument_documents :
    ∀ (docs : List Document) (s : InvertedIndex),
      (docs.foldl InvertedIndex.addDocument s).totalDocs =
        s.totalDocs + docs.length ∧
      (((s.documents.map Prod.fst).Nodup) →
        (((docs.foldl InvertedIndex.addDocument s).documents.map
          Prod.fst).Nodup)) ∧
      (∀ i, i ∈ (docs.foldl InvertedIndex.addDocument s).documents.map
          Prod.fst ↔
        i ∈ s.documents.map Prod.fst ∨ i ∈ docs.map Document.id) := by
  intro docs
  induction docs with
  | nil =>
    intro s
    exact ⟨rfl, fun h => h, by simp⟩
  | cons d rest ih =>
    intro s
    obtain ⟨h1, h2, h3⟩ := ih (s.addDocument d)
    have hdocs : (s.addDocument d).documents = alistSet s.documents d.id d :=
      rfl
    have htot : (s.addDocument d).totalDocs = s.totalDocs + 1 := rfl
    refine ⟨?_, ?_, ?_⟩
    · rw [List.foldl_cons, h1, htot, List.length_cons]
      omega
    · intro hnd
      refine h2 ?_
      rw [hdocs]
      exact nodup_keys_alistSet d.id d hnd
    · intro i
      rw [List.foldl_cons, h3 i, hdocs, keys_alistSet]
      by_cases hany : s.documents.any (fun p => p.1 = d.id) = true
      · rw [if_pos hany]
        have hdmem : d.id ∈ s.documents.map Prod.fst :=
          (any_key_iff _ _).mp hany
        simp only [List.map_cons, List.mem_cons]
        constructor
        · rintro (h | h)
          · exact Or.inl h
          · exact Or.inr (Or.inr h)
        · rintro (h | rfl | h)
          · exact Or.inl h
          · exact Or.inl hdmem
          · exact Or.inr h
      · rw [if_neg hany]
        simp only [List.mem_append, List.mem_singleton, List.map_cons,
          List.mem_cons]
        tauto

theorem documents_length_eq_dedup (docs : List Document) :
    (buildIndex docs).documents.length =
      ((docs.map Document.id).dedup).length := by
  obtain ⟨-, h2, h3⟩ := foldl_addDocument_documents docs InvertedIndex.empty
  have hnd : ((buildIndex docs).documents.map Prod.fst).Nodup :=
    h2 List.nodup_nil
  have hset : ((buildIndex docs).documents.map Prod.fst).toFinset =
      (docs.map Document.id).toFinset := by
    apply Finset.ext
    intro i
    rw [List.mem_toFinset, List.mem_toFinset, buildIndex, h3 i]
    simp [InvertedIndex.empty]
  have hlen : (buildIndex docs).documents.length =
      ((buildIndex docs).documents.map Prod.fst).length :=
    (List.length_map _ _).symm
  rw [hlen, ← List.toFinset_card_of_nodup hnd, hset, List.card_toFinset]

/-- C10: after `n` `addDocument` calls on a fresh index, `totalDocs = n`
(duplicate ids included), the document store has exactly one entry per
distinct id, so `documents.size ≤ totalDocs`, strictly once any id is
re-added. -/
theorem C10_totalDocs_counts (docs : List Document) :
    (buildIndex docs).totalDocs = docs.length ∧
    ((buildIndex docs).documents.map Prod.fst).Nodup ∧
    (∀ i, i ∈ (buildIndex docs).documents.map Prod.fst ↔
      i ∈ docs.map Document.id) ∧
    (buildIndex docs).documents.length ≤ (buildIndex docs).totalDocs ∧
    (¬ (docs.map Document.id).Nodup →
      (buildIndex docs).documents.length < (buildIndex docs).totalDocs) := by
  obtain ⟨h1, h2, h3⟩ := foldl_addDocument_documents docs InvertedIndex.empty
  have h0 : InvertedIndex.empty.totalDocs = 0 := rfl
  have htot : (buildIndex docs).totalDocs = docs.length := by
    rw [buildIndex, h1, h0]
    omega
  have hnd : ((buildIndex docs).documents.map Prod.fst).Nodup :=
    h2 List.nodup_nil
  have hmem : ∀ i, i ∈ (buildIndex docs).documents.map Prod.fst ↔
      i ∈ docs.map Document.id := by
    intro i
    rw [buildIndex, h3 i]
    simp [InvertedIndex.empty]
  have hlen := documents_length_eq_dedup docs
  have hsub : ((docs.map Document.id).dedup).length ≤ docs.length := by
    have := (List.dedup_sublist (docs.map Document.id)).length_le
    simpa using this
  refine ⟨htot, hnd, hmem, by omega, ?_⟩
  intro hdup
  have hne : ((docs.map Document.id).dedup).length ≠ (docs.map Document.id).length := by
    intro heq
    exact hdup (List.dedup_eq_self.mp
      ((List.dedup_sublist (docs.map Document.id)).eq_of_length heq))
  have : (docs.map Document.id).length = docs.length := List.length_map _ _
  omega

/-- Witness for C10: re-adding the id `"1"` makes the store strictly
smaller than `totalDocs`. -/
theorem C10_totalDocs_counts_witness :
    (buildIndex [exampleDoc, exampleDoc]).documents.length <
      (buildIndex [exampleDoc, exampleDoc]).totalDocs :=
  (C10_totalDocs_counts [exampleDoc, exampleDoc]).2.2.2.2 (by decide)

/-! ## C6: the degenerate empty-string contract of levenshteinDistance -/

/-- C6: when either argument is empty, `levenshteinDistance` returns 0
immediately (the deliberate degenerate guard, not the length of the
other string). -/
theorem C6_levenshtein_empty_contract (a b : String) (h : a = "" ∨ b = "") :
    levenshteinDistance a b = 0 := by
  rcases h with rfl | rfl
  · rfl
  · unfold levenshteinDistance
    split
    · rfl
    · split
      · rfl
      · next h2 => exact absurd rfl h2

/-- Witness for C6 in both directions at concrete inputs. -/
theorem C6_levenshtein_empty_contract_witness :
    levenshteinDistance "" "abc" = 0 ∧ levenshteinDistance "abc" "" = 0 :=
  ⟨C6_levenshtein_empty_contract "" "abc" (Or.inl rfl),
   C6_levenshtein_empty_contract "abc" "" (Or.inr rfl)⟩

/-! ## C5: the table computation equals the classic recurrence -/

theorem dpClassic_zero_right (a b : List Char) (i : Nat) :
    dpClassic a b i 0 = i := by
  cases i <;> simp [dpClassic]

theorem dpClassic_zero_left (a b : List Char) (j : Nat) :
    dpClassic a b 0 j = j := by
  cases j <;> simp [dpClassic]

theorem dpClassic_succ (a b : List Char) (i j : Nat) :
    dpClassic a b (i + 1) (j + 1) =
      if a.getD i (Char.ofNat 0) = b.getD j (Char.ofNat 0) then
        dpClassic a b i j
      else
        1 + min (dpClassic a b i (j + 1))
            (min (dpClassic a b (i + 1) j) (dpClassic a b i j)) := by
  rw [dpClassic]

theorem rowAux_spec (A B : List Char) (i : Nat) :
    ∀ (bs : List Char) (j0 : Nat), bs = B.drop j0 →
      rowAux (A.getD i (Char.ofNat 0)) bs
        ((List.range (B.length + 1 - j0)).map
          (fun k => dpClassic A B i (j0 + k)))
        (dpClassic A B (i + 1) j0) =
      (List.range bs.length).map
        (fun k => dpClassic A B (i + 1) (j0 + k + 1)) := by
  intro bs
  induction bs with
  | nil => intro j0 _; rfl
  | cons bb bs' ih =>
    intro j0 hbs
    have hlt : j0 < B.length := by
      by_contra hge
      have hnil : B.drop j0 = [] := List.drop_eq_nil_of_le (by omega)
      rw [hnil] at hbs
      exact List.cons_ne_nil bb bs' hbs
    have hbb : B.getD j0 (Char.ofNat 0) = bb := by
      have h0 : (B.drop j0)[0]? = some bb := by rw [← hbs]; simp
      have h1 : B[j0]? = some bb := by
        simpa using (List.getElem?_drop B j0 0).symm.trans h0
      simp [List.getD_eq_getElem?_getD, h1]
    have hbs' : bs' = B.drop (j0 + 1) := by
      have htl := List.tail_drop B j0
      rw [← hbs] at htl
      simpa using htl
    set c := A.getD i (Char.ofNat 0) with hc
    set prevL := (List.range (B.length + 1 - j0)).map
      (fun k => dpClassic A B i (j0 + k)) with hprevL
    have hstep : rowAux c (bb :: bs') prevL (dpClassic A B (i + 1) j0) =
        (if c = bb then prevL.headD 0
         else 1 + min ((prevL.drop 1).headD 0)
             (min (dpClassic A B (i + 1) j0) (prevL.headD 0))) ::
        rowAux c bs' (prevL.drop 1)
          (if c = bb then prevL.headD 0
           else 1 + min ((prevL.drop 1).headD 0)
               (min (dpClassic A B (i + 1) j0) (prevL.headD 0))) := rfl
    have hr1 : B.length + 1 - j0 = (B.length - j0 - 1 + 1) + 1 := by omega
    have hhead : prevL.headD 0 = dpClassic A B i j0 := by
      rw [hprevL, hr1, List.range_succ_eq_map, List.map_cons, List.headD_cons,
        Nat.add_zero]
    have hdrop : prevL.drop 1 = (List.range (B.length - j0 - 1 + 1)).map
        (fun k => dpClassic A B i (j0 + 1 + k)) := by
      rw [hprevL, hr1, List.range_succ_eq_map, List.map_cons,
        List.drop_succ_cons, List.drop_zero, List.map_map]
      apply List.map_congr_left
      intro k _
      show dpClassic A B i (j0 + Nat.succ k) = dpClassic A B i (j0 + 1 + k)
      have he : j0 + Nat.succ k = j0 + 1 + k := by omega
      rw [he]
    have hup : (prevL.drop 1).headD 0 = dpClassic A B i (j0 + 1) := by
      rw [hdrop, List.range_succ_eq_map, List.map_cons, List.headD_cons]
    have hcell : (if c = bb then prevL.headD 0
        else 1 + min ((prevL.drop 1).headD 0)
            (min (dpClassic A B (i + 1) j0) (prevL.headD 0))) =
        dpClassic A B (i + 1) (j0 + 1) := by
      rw [hhead, hup, dpClassic_succ, hbb]
    rw [hstep, hcell, hdrop]
    have hr2 : B.length - j0 - 1 + 1 = B.length + 1 - (j0 + 1) := by omega
    rw [hr2, ih (j0 + 1) hbs']
    rw [show (bb :: bs').length = bs'.length + 1 from rfl,
      List.range_succ_eq_map, List.map_cons]
    congr 1
    rw [List.map_map]
    apply List.map_congr_left
    intro k _
    show dpClassic A B (i + 1) (j0 + 1 + k + 1) =
      dpClassic A B (i + 1) (j0 + Nat.succ k + 1)
    have he : j0 + 1 + k = j0 + Nat.succ k := by omega
    rw [he]

theorem levRows_spec (A B : List Char) :
    ∀ (as : List Char) (i : Nat), as = A.drop i → i ≤ A.length →
      levRows B as
        ((List.range (B.length + 1)).map (fun k => dpClassic A B i k))
        (i + 1) =
      (List.range (B.length + 1)).map
        (fun k => dpClassic A B A.length k) := by
  intro as
  induction as with
  | nil =>
    intro i has hle
    have hlen : A.length - i = 0 := by
      have h0 := congrArg List.length has
      simpa [List.length_drop] using h0.symm
    have hi : i = A.length := by omega
    rw [hi]
    rfl
  | cons aa as' ih =>
    intro i has hle
    have hlt : i < A.length := by
      have h0 := congrArg List.length has
      simp only [List.length_drop, List.length_cons] at h0
      omega
    have haa : A.getD i (Char.ofNat 0) = aa := by
      have h0 : (A.drop i)[0]? = some aa := by rw [← has]; simp
      have h1 : A[i]? = some aa := by
        simpa using (List.getElem?_drop A i 0).symm.trans h0
      simp [List.getD_eq_getElem?_getD, h1]
    have has' : as' = A.drop (i + 1) := by
      have htl := List.tail_drop A i
      rw [← has] at htl
      simpa using htl
    have hstep : levRows B (aa :: as')
        ((List.range (B.length + 1)).map (fun k => dpClassic A B i k))
        (i + 1) =
        levRows B as'
          ((i + 1) :: rowAux aa B
            ((List.range (B.length + 1)).map (fun k => dpClassic A B i k))
            (i + 1)) (i + 2) := rfl
    rw [hstep]
    have hrow : (i + 1) :: rowAux aa B
        ((List.range (B.length + 1)).map (fun k => dpClassic A B i k))
        (i + 1) =
        (List.range (B.length + 1)).map (fun k => dpClassic A B (i + 1) k) := by
      have h0 := rowAux_spec A B i B 0 (List.drop_zero B).symm
      rw [haa] at h0
      have e1 : ((List.range (B.length + 1 - 0)).map
          (fun k => dpClassic A B i (0 + k))) =
          ((List.range (B.length + 1)).map (fun k => dpClassic A B i k)) := by
        rw [Nat.sub_zero]
        apply List.map_congr_left
        intro k _
        rw [Nat.zero_add]
      have e2 : dpClassic A B (i + 1) 0 = i + 1 := dpClassic_zero_right A B _
      rw [e1, e2] at h0
      rw [h0, List.range_succ_eq_map, List.map_cons]
      congr 1
      · exact (dpClassic_zero_right A B (i + 1)).symm
      · rw [List.map_map]
        apply List.map_congr_left
        intro k _
        show dpClassic A B (i + 1) (0 + k + 1) =
          dpClassic A B (i + 1) (Nat.succ k)
        have he : 0 + k + 1 = Nat.succ k := by omega
        rw [he]
    rw [hrow]
    exact ih (i + 1) has' (by omega)

theorem string_ne_empty_data {a : String} (ha : a ≠ "") : a.data ≠ [] := by
  intro hdnil
  apply ha
  obtain ⟨l⟩ := a
  have hl : l = [] := hdnil
  rw [hl]

theorem lev_eq_dpClassic (a b : String) (ha : a ≠ "") (hb : b ≠ "") :
    levenshteinDistance a b =
      dpClassic a.data b.data a.data.length b.data.length := by
  have ha' : ¬ a.data.isEmpty = true := by
    simp only [List.isEmpty_iff]
    exact string_ne_empty_data ha
  have hb' : ¬ b.data.isEmpty = true := by
    simp only [List.isEmpty_iff]
    exact string_ne_empty_data hb
  unfold levenshteinDistance
  rw [if_neg ha', if_neg hb']
  show (levRows b.data a.data (List.range (b.data.length + 1)) 1).getD
    b.data.length 0 = _
  have e0 : (List.range (b.data.length + 1)).map
      (fun k => dpClassic a.data b.data 0 k) =
      List.range (b.data.length + 1) := by
    have hcongr : ∀ k ∈ List.range (b.data.length + 1),
        dpClassic a.data b.data 0 k = id k := fun k _ =>
      dpClassic_zero_left a.data b.data k
    rw [List.map_congr_left hcongr, List.map_id]
  have h := levRows_spec a.data b.data a.data 0 (List.drop_zero a.data).symm
    (Nat.zero_le _)
  rw [e0] at h
  simp only [Nat.zero_add] at h
  rw [h, List.getD_eq_getElem?_getD, List.getElem?_map,
    List.getElem?_range (by omega)]
  rfl

theorem dpClassic_diag (A : List Char) : ∀ i, dpClassic A A i i = 0 := by
  intro i
  induction i with
  | zero => exact dpClassic_zero_right A A 0
  | succ n ih => rw [dpClassic_succ, if_pos rfl, ih]

/-- C5: for non-empty strings, `levenshteinDistance` computes exactly
the classic Levenshtein dynamic program (`dp[i][0]=i`, `dp[0][j]=j`,
equal-character transition `dp[i-1][j-1]`, else
`1 + min(delete, insert, substitute)`); in particular
`distance("kitten","sitting") = 3` and `distance(s, s) = 0` for every
non-empty `s`. -/
theorem C5_levenshtein_classic :
    (∀ (a b : String), a ≠ "" → b ≠ "" →
      levenshteinDistance a b =
        dpClassic a.data b.data a.data.length b.data.length) ∧
    levenshteinDistance "kitten" "sitting" = 3 ∧
    (∀ s : String, s ≠ "" → levenshteinDistance s s = 0) := by
  refine ⟨lev_eq_dpClassic, by decide, ?_⟩
  intro s hs
  rw [lev_eq_dpClassic s s hs hs, dpClassic_diag]

/-- Witness for C5: the theorem applied at the non-empty string `"ab"`. -/
theorem C5_levenshtein_classic_witness :
    levenshteinDistance "ab" "ab" = 0 :=
  C5_levenshtein_classic.2.2 "ab" (by decide)

/-! ## C7: findClosestTerm's candidate scan -/

theorem ltInf_none (d : Nat) : ltInf d none = true := rfl

theorem ltInf_some (d v : Nat) : ltInf d (some v) = true ↔ d < v := by
  simp [ltInf]

theorem eqInf_some (d v : Nat) : eqInf d (some v) = true ↔ d = v := by
  simp [eqInf]

theorem fcInv_step (vocab : List (String × Nat)) (q : String)
    (done : List String) (st : FCState) (u : String)
    (h : fcInv vocab q done st) :
    fcInv vocab q (done ++ [u]) (fcStep vocab q st u) := by
  unfold fcStep
  show fcInv vocab q (done ++ [u])
    (if (ltInf (levenshteinDistance q u) st.minDistance ||
          eqInf (levenshteinDistance q u) st.minDistance &&
          decide (st.maxDf < (alistGet vocab u).getD 0)) = true then
        FCState.mk (some u) (some (levenshteinDistance q u))
          ((alistGet vocab u).getD 0)
      else st)
  split
  · -- the update branch: the state becomes ⟨some u, some dist, df u⟩
    next hcond =>
    have hcond' : (∀ dt, st.minDistance = some dt →
        levenshteinDistance q u < dt ∨
          (levenshteinDistance q u = dt ∧ st.maxDf < dfOf vocab u)) := by
      intro dt hdt
      rw [hdt] at hcond
      rcases Bool.or_eq_true_iff.mp hcond with hx | hx
      · exact Or.inl ((ltInf_some _ _).mp hx)
      · rcases Bool.and_eq_true_iff.mp hx with ⟨h1, h2⟩
        exact Or.inr ⟨(eqInf_some _ _).mp h1, by
          simpa [dfOf] using of_decide_eq_true h2⟩
    rcases h with ⟨rfl, hst⟩ | ⟨t, htmem, hct, hmd, hdf, hmin, htie⟩
    · refine Or.inr ⟨u, by simp, rfl, rfl, by simp [dfOf], ?_, ?_⟩
      · intro c hc
        rw [List.nil_append, List.mem_singleton] at hc
        subst hc
        exact Nat.le_refl _
      · intro c hc _
        rw [List.nil_append, List.mem_singleton] at hc
        subst hc
        exact Nat.le_refl _
    · have hcases := hcond' _ hmd
      rw [hdf] at hcases
      refine Or.inr ⟨u, by simp, rfl, rfl, by simp [dfOf], ?_, ?_⟩
      · intro c hc
        rcases List.mem_append.mp hc with hc | hc
        · have := hmin c hc
          rcases hcases with hx | hx <;> omega
        · rw [List.mem_singleton] at hc
          subst hc
          exact Nat.le_refl _
      · intro c hc hceq
        rcases List.mem_append.mp hc with hc | hc
        · rcases hcases with hx | hx
          · exact absurd hceq (by have := hmin c hc; omega)
          · have := htie c hc (by omega)
            omega
        · rw [List.mem_singleton] at hc
          subst hc
          exact Nat.le_refl _
  · -- the keep branch: the state is unchanged
    next hcond =>
    rcases h with ⟨rfl, hst⟩ | ⟨t, htmem, hct, hmd, hdf, hmin, htie⟩
    · exfalso
      rw [hst] at hcond
      simp [ltInf] at hcond
    · have hnot : ¬(levenshteinDistance q u < levenshteinDistance q t ∨
          (levenshteinDistance q u = levenshteinDistance q t ∧
            dfOf vocab t < dfOf vocab u)) := by
        intro hx
        apply hcond
        rw [hmd, hdf]
        rcases hx with hx | hx
        · rw [Bool.or_eq_true_iff]
          exact Or.inl ((ltInf_some _ _).mpr hx)
        · rw [Bool.or_eq_true_iff]
          refine Or.inr (Bool.and_eq_true_iff.mpr
            ⟨(eqInf_some _ _).mpr hx.1, decide_eq_true (by
              simpa [dfOf] using hx.2)⟩)
      push_neg at hnot
      refine Or.inr ⟨t, List.mem_append.mpr (Or.inl htmem), hct, hmd, hdf,
        ?_, ?_⟩
      · intro c hc
        rcases List.mem_append.mp hc with hc | hc
        · exact hmin c hc
        · rw [List.mem_singleton] at hc
          subst hc
          have := hnot.1
          omega
      · intro c hc hceq
        rcases List.mem_append.mp hc with hc | hc
        · exact htie c hc hceq
        · rw [List.mem_singleton] at hc
          subst hc
          have := hnot.2 hceq
          omega

theorem fcInv_foldl (vocab : List (String × Nat)) (q : String) :
    ∀ (todo done : List String) (st : FCState), fcInv vocab q done st →
      fcInv vocab q (done ++ todo) (todo.foldl (fcStep vocab q) st) := by
  intro todo
  induction todo with
  | nil =>
    intro done st h
    simpa using h
  | cons u rest ih =>
    intro done st h
    have h1 := fcInv_step vocab q done st u h
    have h2 := ih (done ++ [u]) _ h1
    rw [List.foldl_cons]
    have e : (done ++ [u]) ++ rest = done ++ u :: rest := by simp
    rw [e] at h2
    exact h2

theorem candidate_ne_empty {vocab : List (String × Nat)} {q t : String}
    (ht : t ∈ validCandidates vocab q) (hq : q ≠ "") : t ≠ "" := by
  intro hte
  subst hte
  unfold validCandidates at ht
  rw [List.mem_filter] at ht
  have hfc := ht.2
  unfold firstCharEq at hfc
  obtain ⟨qc, qrest, hqd⟩ : ∃ c r, q.data = c :: r := by
    cases hd : q.data with
    | nil => exact absurd (string_ne_empty_data hq) (by simp [hd])
    | cons c r => exact ⟨c, r, rfl⟩
  rw [hqd] at hfc
  simp at hfc

/-- C7: for a non-empty query, `findClosestTerm` only considers
vocabulary terms sharing the query's first character; it returns a term
exactly when the minimum Levenshtein distance over those candidates
is ≤ 3, and the returned term attains that minimum with maximal
document frequency among the minimum-distance candidates; otherwise it
returns `null`. -/
theorem C7_findClosestTerm_spec (vocab : List (String × Nat)) (q : String)
    (hq : q ≠ "") :
    (∀ t, findClosestTerm vocab q = some t →
      t ∈ validCandidates vocab q ∧
      levenshteinDistance q t ≤ 3 ∧
      (∀ c ∈ validCandidates vocab q,
        levenshteinDistance q t ≤ levenshteinDistance q c) ∧
      (∀ c ∈ validCandidates vocab q,
        levenshteinDistance q c = levenshteinDistance q t →
          dfOf vocab c ≤ dfOf vocab t)) ∧
    (findClosestTerm vocab q = none →
      ∀ c ∈ validCandidates vocab q, 3 < levenshteinDistance q c) := by
  have hinv := fcInv_foldl vocab q (validCandidates vocab q) []
    { closestTerm := none, minDistance := none, maxDf := 0 }
    (Or.inl ⟨rfl, rfl⟩)
  rw [List.nil_append] at hinv
  have hfceq : findClosestTerm vocab q = fcFinal
      ((validCandidates vocab q).foldl (fcStep vocab q)
        { closestTerm := none, minDistance := none, maxDf := 0 }) := rfl
  set st := (validCandidates vocab q).foldl (fcStep vocab q)
    { closestTerm := none, minDistance := none, maxDf := 0 } with hstdef
  clear_value st
  rcases hinv with ⟨hnil, hst⟩ | ⟨t, htmem, hct, hmd, hdf, hmin, htie⟩
  · rw [hst] at hfceq
    have hfc : findClosestTerm vocab q = none := hfceq
    constructor
    · intro t ht
      rw [hfc] at ht
      exact absurd ht (by simp)
    · intro _ c hc
      rw [hnil] at hc
      simp at hc
  · obtain ⟨a, b, c0⟩ := st
    simp only at hct hmd hdf
    subst hct; subst hmd; subst hdf
    have htne : t ≠ "" := candidate_ne_empty htmem hq
    have hfin : fcFinal (FCState.mk (some t)
        (some (levenshteinDistance q t)) (dfOf vocab t)) =
        if levenshteinDistance q t ≤ 3 ∧ t ≠ "" then some t else none := rfl
    rw [hfin] at hfceq
    by_cases h3 : levenshteinDistance q t ≤ 3
    · rw [if_pos ⟨h3, htne⟩] at hfceq
      constructor
      · intro u hu
        rw [hfceq] at hu
        injection hu with hu
        subst hu
        exact ⟨htmem, h3, hmin, htie⟩
      · intro habs
        rw [hfceq] at habs
        exact absurd habs (by simp)
    · rw [if_neg (fun hc => h3 hc.1)] at hfceq
      constructor
      · intro u hu
        rw [hfceq] at hu
        exact absurd hu (by simp)
      · intro _ c hc
        have := hmin c hc
        omega

/-- Witness for C7: on the vocabulary `[("python", 3)]` and the
non-empty query `"pythn"`, the theorem's conclusions hold for the
returned term. -/
theorem C7_findClosestTerm_spec_witness :
    findClosestTerm [("python", 3)] "pythn" = some "python" ∧
    ("python" ∈ validCandidates [("python", 3)] "pythn" ∧
      levenshteinDistance "pythn" "python" ≤ 3 ∧
      (∀ c ∈ validCandidates [("python", 3)] "pythn",
        levenshteinDistance "pythn" "python" ≤ levenshteinDistance "pythn" c) ∧
      (∀ c ∈ validCandidates [("python", 3)] "pythn",
        levenshteinDistance "pythn" c = levenshteinDistance "pythn" "python" →
          dfOf [("python", 3)] c ≤ dfOf [("python", 3)] "python")) :=
  ⟨by decide,
   (C7_findClosestTerm_spec [("python", 3)] "pythn" (by decide)).1 "python"
     (by decide)⟩

/-! ## C9 and C1: the MinHeap's `bubbleDown` never terminates

The source's `bubbleDown` is `while (true) {}`: the loop guard is the
literal `true` and the body is empty, so once entered the loop never
exits.  In the fuel semantics every fuel step runs one iteration and
`none` (fuel exhausted mid-loop) results for every fuel — the
computation diverges. -/

theorem bubbleDownFuel_none {α : Type} (fuel : Nat) (h : List α)
    (index : Nat) : bubbleDownFuel fuel h index = none := by
  induction fuel with
  | zero => rfl
  | succ n ih =>
    unfold bubbleDownFuel
    rw [if_pos rfl]
    exact ih

/-- C9: `pop()` does not terminate on any heap of length ≥ 2: for every
fuel the embedded `pop` reports divergence, because it delegates to
`bubbleDown(0)`, whose loop `while (true) {}` never exits.  (On heaps
of length ≤ 1 `pop` returns without entering the loop, so the claim's
termination statement fails exactly on the ≥ 2 case it singles out.) -/
theorem C9_pop_diverges (h : List Int) (fuel : Nat) (hlen : 2 ≤ h.length) :
    MinHeap.popFuel cmpNum fuel h = none := by
  unfold MinHeap.popFuel
  rw [if_neg (by omega), if_neg (by omega)]
  show (bubbleDownFuel fuel _ 0).map _ = none
  rw [bubbleDownFuel_none]
  rfl

/-- Witness for C9: the two-element heap reached by `push(1); push(2)`
from the empty heap diverges on `pop` (fuel 1000 shown; the theorem
gives every fuel). -/
theorem C9_pop_diverges_witness :
    MinHeap.popFuel cmpNum 1000
      (MinHeap.push cmpNum (MinHeap.push cmpNum ([] : List Int) 1) 2) =
      none :=
  C9_pop_diverges (MinHeap.push cmpNum (MinHeap.push cmpNum [] 1) 2) 1000
    (by decide)

/-- C1: the top-K selection loop of `autocomplete` diverges as soon as
the heap is full and a candidate's score beats `peek()`: with the
candidates `[{a,5},{b,3},{c,8}]` and `limit = 2`, the arrival of
`{c,8}` triggers `pop()` on a two-element heap, which never returns
(for every fuel the embedding reports divergence).  The loop therefore
never outputs the K highest-scoring items.  Note also that with the
comparator `(a,b) => b.score - a.score` the root of the `MinHeap` is
the **highest**-scoring retained item, so the eviction compares
against the best, not the worst, contrary to the claim. -/
theorem C1_autocomplete_topK_diverges (fuel : Nat) :
    autocompleteTopK fuel
      [ScoredItem.mk "a" 5, ScoredItem.mk "b" 3, ScoredItem.mk "c" 8] 2 =
      none := by
  have hpush2 : MinHeap.push cmpScored
      (MinHeap.push cmpScored [] (ScoredItem.mk "a" 5))
      (ScoredItem.mk "b" 3) =
      [ScoredItem.mk "a" 5, ScoredItem.mk "b" 3] := by decide
  unfold autocompleteTopK
  have hloop : topKLoop fuel 2 []
      [ScoredItem.mk "a" 5, ScoredItem.mk "b" 3, ScoredItem.mk "c" 8] =
      none := by
    unfold topKLoop
    rw [if_pos (by decide)]
    unfold topKLoop
    rw [if_pos (by decide)]
    rw [hpush2]
    unfold topKLoop
    rw [if_neg (by decide), if_pos (by decide)]
    have hpop : MinHeap.popFuel cmpScored fuel
        [ScoredItem.mk "a" 5, ScoredItem.mk "b" 3] = none := by
      unfold MinHeap.popFuel
      rw [if_neg (by decide), if_neg (by decide)]
      show (bubbleDownFuel fuel _ 0).map _ = none
      rw [bubbleDownFuel_none]
      rfl
    rw [hpop]
  rw [hloop]

/-! ## C4: trie round-trip — list-level helper lemmas -/

theorem wordsUnderList_append (l₁ l₂ : List (Char × TrieNode))
    (cur : List Char) :
    wordsUnderList (l₁ ++ l₂) cur =
      wordsUnderList l₁ cur ++ wordsUnderList l₂ cur := by
  induction l₁ with
  | nil => rfl
  | cons q rest ih =>
    obtain ⟨c, child⟩ := q
    rw [List.cons_append]
    show wordsUnder child (cur ++ [c]) ++ wordsUnderList (rest ++ l₂) cur = _
    rw [ih]
    rw [show wordsUnderList ((c, child) :: rest) cur =
      wordsUnder child (cur ++ [c]) ++ wordsUnderList rest cur from rfl]
    rw [List.append_assoc]

theorem mem_wordsUnderList {l : List (Char × TrieNode)} {c : Char}
    {t' : TrieNode} (hmem : (c, t') ∈ l) {cur x : List Char}
    (hx : x ∈ wordsUnder t' (cur ++ [c])) : x ∈ wordsUnderList l cur := by
  induction l with
  | nil => simp at hmem
  | cons q rest ih =>
    obtain ⟨c0, t0⟩ := q
    show x ∈ wordsUnder t0 (cur ++ [c0]) ++ wordsUnderList rest cur
    rcases List.mem_cons.mp hmem with heq | hmem'
    · injection heq with e1 e2
      subst e1; subst e2
      exact List.mem_append.mpr (Or.inl hx)
    · exact List.mem_append.mpr (Or.inr (ih hmem'))

theorem mem_alistSet_self {α β : Type} [DecidableEq α]
    (l : List (α × β)) (k : α) (v : β) : (k, v) ∈ alistSet l k v := by
  unfold alistSet
  split
  · next hany =>
    obtain ⟨q, hq, hqk⟩ := List.any_eq_true.mp hany
    refine List.mem_map.mpr ⟨q, hq, ?_⟩
    rw [if_pos (by simpa using hqk)]
  · exact List.mem_append.mpr (Or.inr (by simp))

theorem alistGet_none_iff {α β : Type} [DecidableEq α]
    (l : List (α × β)) (k : α) :
    alistGet l k = none ↔ ∀ q ∈ l, q.1 ≠ k := by
  unfold alistGet
  rw [Option.map_eq_none', List.find?_eq_none]
  constructor
  · intro h q hq
    have := h q hq
    simpa using this
  · intro h q hq
    simpa using h q hq

theorem alistGet_split {α β : Type} [DecidableEq α] {l : List (α × β)}
    {k : α} {v₀ : β} (h : alistGet l k = some v₀) :
    ∃ l₁ l₂, l = l₁ ++ (k, v₀) :: l₂ ∧ ∀ q ∈ l₁, q.1 ≠ k := by
  induction l with
  | nil => simp [alistGet] at h
  | cons q rest ih =>
    obtain ⟨k0, w0⟩ := q
    by_cases hk : k0 = k
    · subst hk
      have hv : w0 = v₀ := by
        unfold alistGet at h
        rw [List.find?_cons_of_pos _ (by simp)] at h
        simpa using h
      subst hv
      exact ⟨[], rest, rfl, by simp⟩
    · have h' : alistGet rest k = some v₀ := by
        unfold alistGet at h ⊢
        rwa [List.find?_cons_of_neg _ (by simpa using hk)] at h
      obtain ⟨l₁, l₂, heq, hno⟩ := ih h'
      refine ⟨(k0, w0) :: l₁, l₂, by rw [heq]; rfl, ?_⟩
      intro q hq
      rcases List.mem_cons.mp hq with rfl | hq'
      · simpa using hk
      · exact hno q hq'

theorem alistSet_of_split {α β : Type} [DecidableEq α]
    (l₁ l₂ : List (α × β)) (k : α) (v₀ v : β)
    (hno1 : ∀ q ∈ l₁, q.1 ≠ k) (hno2 : ∀ q ∈ l₂, q.1 ≠ k) :
    alistSet (l₁ ++ (k, v₀) :: l₂) k v = l₁ ++ (k, v) :: l₂ := by
  unfold alistSet
  rw [if_pos (List.any_eq_true.mpr ⟨(k, v₀), by simp, by simp⟩)]
  rw [List.map_append, List.map_cons]
  congr 1
  · apply (List.map_congr_left _).trans (List.map_id _)
    intro q hq
    rw [if_neg (hno1 q hq)]
    rfl
  · congr 1
    · rw [if_pos rfl]
    · apply (List.map_congr_left _).trans (List.map_id _)
      intro q hq
      rw [if_neg (hno2 q hq)]
      rfl

theorem wfList_append {l₁ l₂ : List (Char × TrieNode)}
    (h1 : TrieNode.wfList l₁) (h2 : TrieNode.wfList l₂) :
    TrieNode.wfList (l₁ ++ l₂) := by
  induction l₁ with
  | nil => exact h2
  | cons q rest ih =>
    obtain ⟨c, child⟩ := q
    obtain ⟨hq, hrest⟩ := h1
    exact ⟨hq, ih hrest⟩

theorem wfList_mem {l : List (Char × TrieNode)} (h : TrieNode.wfList l)
    {c : Char} {t' : TrieNode} (hmem : (c, t') ∈ l) : t'.wf := by
  induction l with
  | nil => simp at hmem
  | cons q rest ih =>
    obtain ⟨c0, t0⟩ := q
    obtain ⟨hq, hrest⟩ := h
    rcases List.mem_cons.mp hmem with heq | hmem'
    · injection heq with e1 e2
      subst e2
      exact hq
    · exact ih hrest hmem'

theorem wfList_map_set {l : List (Char × TrieNode)} (h : TrieNode.wfList l)
    {c : Char} {v : TrieNode} (hv : v.wf) :
    TrieNode.wfList (l.map (fun q => if q.1 = c then (c, v) else q)) := by
  induction l with
  | nil => exact trivial
  | cons q rest ih =>
    obtain ⟨c0, t0⟩ := q
    obtain ⟨hq, hrest⟩ := h
    rw [List.map_cons]
    by_cases hc : c0 = c
    · rw [show (if (c0, t0).1 = c then (c, v) else (c0, t0)) = (c, v) from
        by rw [if_pos hc]]
      exact ⟨hv, ih hrest⟩
    · rw [show (if (c0, t0).1 = c then (c, v) else (c0, t0)) = (c0, t0) from
        by rw [if_neg hc]]
      exact ⟨hq, ih hrest⟩

/-! ## C4: with a sufficient limit, the DFS collects every word below -/

mutual
theorem collect_eq_wordsUnder (limit : Nat) (t : TrieNode) (cur : List Char)
    (res : List (List Char))
    (hlim : res.length + (wordsUnder t cur).length ≤ limit) :
    collectWords limit t cur res = res ++ wordsUnder t cur := by
  obtain ⟨children, isEnd⟩ := t
  rw [wordsUnder] at hlim ⊢
  simp only [collectWords]
  cases isEnd
  · simp only [Bool.false_eq_true, if_false, List.nil_append] at hlim ⊢
    by_cases hr : limit ≤ res.length
    · rw [if_pos hr]
      have hnil : wordsUnderList children cur = [] :=
        List.length_eq_zero.mp (by omega)
      rw [hnil, List.append_nil]
    · rw [if_neg hr]
      exact collectList_eq limit children cur res hlim
  · simp only [if_true, List.singleton_append] at hlim ⊢
    by_cases hr : limit ≤ res.length
    · exfalso
      rw [List.length_cons] at hlim
      omega
    · rw [if_neg hr]
      have h2 := collectList_eq limit children cur (res ++ [cur])
        (by
          rw [List.length_append, List.length_cons]
          rw [List.length_cons] at hlim
          simp
          omega)
      rw [h2, List.append_assoc]
      rfl

theorem collectList_eq (limit : Nat) (l : List (Char × TrieNode))
    (cur : List Char) (res : List (List Char))
    (hlim : res.length + (wordsUnderList l cur).length ≤ limit) :
    collectList limit l cur res = res ++ wordsUnderList l cur := by
  match l with
  | [] =>
    simp only [collectList, wordsUnderList, List.append_nil]
  | (c, child) :: rest =>
    rw [wordsUnderList] at hlim ⊢
    simp only [collectList]
    rw [List.length_append] at hlim
    have h1 : collectWords limit child (cur ++ [c]) res =
        res ++ wordsUnder child (cur ++ [c]) :=
      collect_eq_wordsUnder limit child (cur ++ [c]) res (by omega)
    rw [h1]
    have h2 := collectList_eq limit rest cur
      (res ++ wordsUnder child (cur ++ [c]))
      (by rw [List.length_append]; omega)
    rw [h2, List.append_assoc]
end

/-! ## C4: every collected word extends the current path -/

mutual
theorem wordsUnder_extends (t : TrieNode) (cur x : List Char)
    (hx : x ∈ wordsUnder t cur) : cur <+: x := by
  obtain ⟨children, isEnd⟩ := t
  rw [wordsUnder] at hx
  rcases List.mem_append.mp hx with h | h
  · cases isEnd
    · simp at h
    · rw [if_pos rfl, List.mem_singleton] at h
      subst h
      exact List.prefix_refl x
  · exact wordsUnderList_extends children cur x h

theorem wordsUnderList_extends (l : List (Char × TrieNode)) (cur x : List Char)
    (hx : x ∈ wordsUnderList l cur) : cur <+: x := by
  match l with
  | [] => rw [wordsUnderList] at hx; simp at hx
  | (c, child) :: rest =>
    rw [wordsUnderList] at hx
    rcases List.mem_append.mp hx with h | h
    · have h1 := wordsUnder_extends child (cur ++ [c]) x h
      exact (List.prefix_append cur [c]).trans h1
    · exact wordsUnderList_extends rest cur x h
end

/-- Each word below a child of `l` carries that child's character right
after `cur`. -/
theorem wordsUnderList_child_prefix (l : List (Char × TrieNode))
    (cur x : List Char) (hx : x ∈ wordsUnderList l cur) :
    ∃ c ∈ l.map Prod.fst, (cur ++ [c]) <+: x := by
  induction l with
  | nil => rw [wordsUnderList] at hx; simp at hx
  | cons q rest ih =>
    obtain ⟨c, child⟩ := q
    rw [wordsUnderList] at hx
    rcases List.mem_append.mp hx with h | h
    · exact ⟨c, by simp, wordsUnder_extends child (cur ++ [c]) x h⟩
    · obtain ⟨c', hc', hp⟩ := ih h
      exact ⟨c', by simp [hc'], hp⟩

/-- Two single-character extensions of `cur` prefixing the same word
agree on the character. -/
theorem char_prefix_unique {cur x : List Char} {a b : Char}
    (ha : (cur ++ [a]) <+: x) (hb : (cur ++ [b]) <+: x) : a = b := by
  rcases List.prefix_or_prefix_of_prefix ha hb with h | h
  · have := h.eq_of_length (by simp)
    simpa using this
  · have := h.eq_of_length (by simp)
    have h2 : b = a := by simpa using this
    exact h2.symm

/-! ## C4: insertion adds the word and keeps the existing ones -/

theorem mem_wordsUnder_insertAux (w : List Char) :
    ∀ (t : TrieNode) (cur : List Char),
      (cur ++ w) ∈ wordsUnder (insertAux w t) cur := by
  induction w with
  | nil =>
    intro t cur
    show (cur ++ []) ∈ wordsUnder (TrieNode.mk t.children true) cur
    rw [wordsUnder, if_pos rfl, List.append_nil]
    exact List.mem_append.mpr (Or.inl (by simp))
  | cons c w' ih =>
    intro t cur
    rw [insertAux]
    cases hget : alistGet t.children c with
    | some child =>
      rw [wordsUnder]
      refine List.mem_append.mpr (Or.inr ?_)
      have hmem : (c, insertAux w' child) ∈
          alistSet t.children c (insertAux w' child) :=
        mem_alistSet_self t.children c (insertAux w' child)
      refine mem_wordsUnderList hmem ?_
      rw [show cur ++ c :: w' = (cur ++ [c]) ++ w' from List.append_cons cur c w']
      exact ih child (cur ++ [c])
    | none =>
      rw [wordsUnder]
      refine List.mem_append.mpr (Or.inr ?_)
      have hmem : (c, insertAux w' TrieNode.empty) ∈
          t.children ++ [(c, insertAux w' TrieNode.empty)] := by simp
      refine mem_wordsUnderList hmem ?_
      rw [show cur ++ c :: w' = (cur ++ [c]) ++ w' from List.append_cons cur c w']
      exact ih TrieNode.empty (cur ++ [c])

theorem alistGet_any {α β : Type} [DecidableEq α] {l : List (α × β)}
    {k : α} {v : β} (h : alistGet l k = some v) :
    l.any (fun p => p.1 = k) = true :=
  List.any_eq_true.mpr ⟨(k, v), alistGet_mem h, by simp⟩

theorem wf_empty : TrieNode.empty.wf := by
  rw [TrieNode.empty, TrieNode.wf]
  exact ⟨List.nodup_nil, trivial⟩

theorem wordsUnder_empty (cur : List Char) :
    wordsUnder TrieNode.empty cur = [] := by
  rw [TrieNode.empty, wordsUnder]
  simp [wordsUnderList]

theorem wf_insertAux (w : List Char) :
    ∀ (t : TrieNode), t.wf → (insertAux w t).wf := by
  induction w with
  | nil =>
    intro t hwf
    obtain ⟨children, isEnd⟩ := t
    rw [TrieNode.wf] at hwf
    show (TrieNode.mk children true).wf
    rw [TrieNode.wf]
    exact hwf
  | cons c w' ih =>
    intro t hwf
    obtain ⟨children, isEnd⟩ := t
    rw [TrieNode.wf] at hwf
    obtain ⟨hnd, hwl⟩ := hwf
    rw [insertAux]
    simp only [TrieNode.children, TrieNode.isEndOfWord]
    cases hget : alistGet children c with
    | some child =>
      show (TrieNode.mk (alistSet children c (insertAux w' child)) isEnd).wf
      rw [TrieNode.wf]
      constructor
      · rw [keys_alistSet, if_pos (alistGet_any hget)]
        exact hnd
      · have hwfchild : child.wf := wfList_mem hwl (alistGet_mem hget)
        have hwfnew := ih child hwfchild
        unfold alistSet
        rw [if_pos (alistGet_any hget)]
        exact wfList_map_set hwl hwfnew
    | none =>
      show (TrieNode.mk (children ++ [(c, insertAux w' TrieNode.empty)])
        isEnd).wf
      rw [TrieNode.wf]
      constructor
      · rw [List.map_append]
        refine hnd.append (by simp) ?_
        intro a ha hb
        simp only [List.map_cons, List.map_nil, List.mem_singleton] at hb
        subst hb
        obtain ⟨q, hq, hq1⟩ := List.mem_map.mp ha
        exact (alistGet_none_iff children a).mp hget q hq hq1
      · refine wfList_append hwl ?_
        show (insertAux w' TrieNode.empty).wf ∧ True
        exact ⟨ih TrieNode.empty wf_empty, trivial⟩

theorem keys_no_dup_right {l₁ l₂ : List (Char × TrieNode)} {c : Char}
    {child : TrieNode}
    (hnd : (((l₁ ++ (c, child) :: l₂).map Prod.fst)).Nodup) :
    ∀ q ∈ l₂, q.1 ≠ c := by
  intro q hq hqc
  rw [List.map_append, List.map_cons] at hnd
  have h1 := (List.nodup_append.mp hnd).2.1
  rw [List.nodup_cons] at h1
  exact h1.1 (by
    refine List.mem_map.mpr ⟨q, hq, ?_⟩
    exact hqc)

theorem wordsUnder_insertAux_mono (w : List Char) :
    ∀ (t : TrieNode) (cur x : List Char), t.wf → x ∈ wordsUnder t cur →
      x ∈ wordsUnder (insertAux w t) cur := by
  induction w with
  | nil =>
    intro t cur x _ hx
    obtain ⟨children, isEnd⟩ := t
    rw [wordsUnder] at hx
    show x ∈ wordsUnder (TrieNode.mk children true) cur
    rw [wordsUnder, if_pos rfl]
    rcases List.mem_append.mp hx with h | h
    · cases isEnd
      · simp at h
      · rw [if_pos rfl] at h
        exact List.mem_append.mpr (Or.inl h)
    · exact List.mem_append.mpr (Or.inr h)
  | cons c w' ih =>
    intro t cur x hwf hx
    obtain ⟨children, isEnd⟩ := t
    rw [TrieNode.wf] at hwf
    obtain ⟨hnd, hwl⟩ := hwf
    rw [wordsUnder] at hx
    rw [insertAux]
    simp only [TrieNode.children, TrieNode.isEndOfWord]
    cases hget : alistGet children c with
    | some child =>
      show x ∈ wordsUnder
        (TrieNode.mk (alistSet children c (insertAux w' child)) isEnd) cur
      rw [wordsUnder]
      obtain ⟨l₁, l₂, hsplit, hno1⟩ := alistGet_split hget
      have hno2 : ∀ q ∈ l₂, q.1 ≠ c := keys_no_dup_right (hsplit ▸ hnd)
      have hset : alistSet children c (insertAux w' child) =
          l₁ ++ (c, insertAux w' child) :: l₂ := by
        rw [hsplit]
        exact alistSet_of_split l₁ l₂ c child (insertAux w' child) hno1 hno2
      rw [hset]
      rcases List.mem_append.mp hx with h | h
      · exact List.mem_append.mpr (Or.inl h)
      · refine List.mem_append.mpr (Or.inr ?_)
        rw [hsplit] at h
        rw [wordsUnderList_append] at h ⊢
        rcases List.mem_append.mp h with h | h
        · exact List.mem_append.mpr (Or.inl h)
        · refine List.mem_append.mpr (Or.inr ?_)
          rw [show wordsUnderList ((c, child) :: l₂) cur =
            wordsUnder child (cur ++ [c]) ++ wordsUnderList l₂ cur
            from rfl] at h
          rw [show wordsUnderList ((c, insertAux w' child) :: l₂) cur =
            wordsUnder (insertAux w' child) (cur ++ [c]) ++
              wordsUnderList l₂ cur from rfl]
          rcases List.mem_append.mp h with h | h
          · have hwfchild : child.wf := wfList_mem hwl (alistGet_mem hget)
            exact List.mem_append.mpr
              (Or.inl (ih child (cur ++ [c]) x hwfchild h))
          · exact List.mem_append.mpr (Or.inr h)
    | none =>
      show x ∈ wordsUnder
        (TrieNode.mk (children ++ [(c, insertAux w' TrieNode.empty)])
          isEnd) cur
      rw [wordsUnder]
      rcases List.mem_append.mp hx with h | h
      · exact List.mem_append.mpr (Or.inl h)
      · refine List.mem_append.mpr (Or.inr ?_)
        rw [wordsUnderList_append]
        exact List.mem_append.mpr (Or.inl h)

theorem wul_map_subset {v' : TrieNode} {c : Char} :
    ∀ (l : List (Char × TrieNode)) (cur x : List Char),
      x ∈ wordsUnderList
        (l.map (fun q => if q.1 = c then (c, v') else q)) cur →
      x ∈ wordsUnderList l cur ∨ x ∈ wordsUnder v' (cur ++ [c]) := by
  intro l
  induction l with
  | nil =>
    intro cur x hx
    rw [List.map_nil] at hx
    exact Or.inl hx
  | cons q rest ih =>
    intro cur x hx
    obtain ⟨c0, t0⟩ := q
    rw [List.map_cons] at hx
    by_cases hc : c0 = c
    · rw [show (if ((c0, t0) : Char × TrieNode).1 = c then (c, v')
          else (c0, t0)) = (c, v') from by rw [if_pos hc]] at hx
      rw [show wordsUnderList ((c, v') ::
          rest.map (fun q => if q.1 = c then (c, v') else q)) cur =
          wordsUnder v' (cur ++ [c]) ++ wordsUnderList
            (rest.map (fun q => if q.1 = c then (c, v') else q)) cur
          from rfl] at hx
      rcases List.mem_append.mp hx with h | h
      · exact Or.inr h
      · rcases ih cur x h with h | h
        · refine Or.inl ?_
          rw [show wordsUnderList ((c0, t0) :: rest) cur =
            wordsUnder t0 (cur ++ [c0]) ++ wordsUnderList rest cur
            from rfl]
          exact List.mem_append.mpr (Or.inr h)
        · exact Or.inr h
    · rw [show (if ((c0, t0) : Char × TrieNode).1 = c then (c, v')
          else (c0, t0)) = (c0, t0) from by rw [if_neg hc]] at hx
      rw [show wordsUnderList ((c0, t0) ::
          rest.map (fun q => if q.1 = c then (c, v') else q)) cur =
          wordsUnder t0 (cur ++ [c0]) ++ wordsUnderList
            (rest.map (fun q => if q.1 = c then (c, v') else q)) cur
          from rfl] at hx
      rcases List.mem_append.mp hx with h | h
      · refine Or.inl ?_
        rw [show wordsUnderList ((c0, t0) :: rest) cur =
          wordsUnder t0 (cur ++ [c0]) ++ wordsUnderList rest cur from rfl]
        exact List.mem_append.mpr (Or.inl h)
      · rcases ih cur x h with h | h
        · refine Or.inl ?_
          rw [show wordsUnderList ((c0, t0) :: rest) cur =
            wordsUnder t0 (cur ++ [c0]) ++ wordsUnderList rest cur
            from rfl]
          exact List.mem_append.mpr (Or.inr h)
        · exact Or.inr h

theorem wordsUnder_insertAux_subset (w : List Char) :
    ∀ (t : TrieNode) (cur x : List Char),
      x ∈ wordsUnder (insertAux w t) cur →
      x = cur ++ w ∨ x ∈ wordsUnder t cur := by
  induction w with
  | nil =>
    intro t cur x hx
    obtain ⟨children, isEnd⟩ := t
    have hx' : x ∈ wordsUnder (TrieNode.mk children true) cur := hx
    rw [wordsUnder, if_pos rfl] at hx'
    rcases List.mem_append.mp hx' with h | h
    · rw [List.mem_singleton] at h
      exact Or.inl (by rw [h, List.append_nil])
    · refine Or.inr ?_
      rw [wordsUnder]
      exact List.mem_append.mpr (Or.inr h)
  | cons c w' ih =>
    intro t cur x hx
    obtain ⟨children, isEnd⟩ := t
    rw [insertAux] at hx
    simp only [TrieNode.children, TrieNode.isEndOfWord] at hx
    cases hget : alistGet children c with
    | some child =>
      rw [hget] at hx
      have hx' : x ∈ wordsUnder
          (TrieNode.mk (alistSet children c (insertAux w' child)) isEnd)
          cur := hx
      rw [wordsUnder] at hx'
      rcases List.mem_append.mp hx' with h | h
      · refine Or.inr ?_
        rw [wordsUnder]
        exact List.mem_append.mpr (Or.inl h)
      · have halist : alistSet children c (insertAux w' child) =
            children.map (fun q => if q.1 = c then
              (c, insertAux w' child) else q) := by
          unfold alistSet
          rw [if_pos (alistGet_any hget)]
        rw [halist] at h
        rcases wul_map_subset children cur x h with h | h
        · refine Or.inr ?_
          rw [wordsUnder]
          exact List.mem_append.mpr (Or.inr h)
        · rcases ih child (cur ++ [c]) x h with h | h
          · refine Or.inl ?_
            rw [h, List.append_cons cur c w']
          · refine Or.inr ?_
            rw [wordsUnder]
            exact List.mem_append.mpr
              (Or.inr (mem_wordsUnderList (alistGet_mem hget) h))
    | none =>
      rw [hget] at hx
      have hx' : x ∈ wordsUnder
          (TrieNode.mk (children ++ [(c, insertAux w' TrieNode.empty)])
            isEnd) cur := hx
      rw [wordsUnder] at hx'
      rcases List.mem_append.mp hx' with h | h
      · refine Or.inr ?_
        rw [wordsUnder]
        exact List.mem_append.mpr (Or.inl h)
      · rw [wordsUnderList_append] at h
        rcases List.mem_append.mp h with h | h
        · refine Or.inr ?_
          rw [wordsUnder]
          exact List.mem_append.mpr (Or.inr h)
        · rw [show wordsUnderList [(c, insertAux w' TrieNode.empty)] cur =
            wordsUnder (insertAux w' TrieNode.empty) (cur ++ [c]) ++ []
            from rfl, List.append_nil] at h
          rcases ih TrieNode.empty (cur ++ [c]) x h with h | h
          · refine Or.inl ?_
            rw [h, List.append_cons cur c w']
          · rw [wordsUnder_empty] at h
            simp at h

mutual
theorem nodup_wordsUnder (t : TrieNode) (cur : List Char) (hwf : t.wf) :
    (wordsUnder t cur).Nodup := by
  obtain ⟨children, isEnd⟩ := t
  rw [TrieNode.wf] at hwf
  obtain ⟨hnd, hwl⟩ := hwf
  rw [wordsUnder]
  have hl := nodup_wordsUnderList children cur hwl hnd
  cases isEnd
  · simpa using hl
  · rw [if_pos rfl, List.singleton_append, List.nodup_cons]
    refine ⟨?_, hl⟩
    intro hmem
    obtain ⟨c, _, hp⟩ := wordsUnderList_child_prefix children cur cur hmem
    have := hp.length_le
    simp at this

theorem nodup_wordsUnderList (l : List (Char × TrieNode)) (cur : List Char)
    (hwf : TrieNode.wfList l) (hnd : (l.map Prod.fst).Nodup) :
    (wordsUnderList l cur).Nodup := by
  match l with
  | [] => rw [wordsUnderList]; exact List.nodup_nil
  | (c, child) :: rest =>
    rw [wordsUnderList]
    obtain ⟨hwfc, hwfr⟩ := hwf
    rw [List.map_cons, List.nodup_cons] at hnd
    obtain ⟨hcnot, hndr⟩ := hnd
    refine (nodup_wordsUnder child (cur ++ [c]) hwfc).append
      (nodup_wordsUnderList rest cur hwfr hndr) ?_
    intro x hx1 hx2
    have hp1 := wordsUnder_extends child (cur ++ [c]) x hx1
    obtain ⟨c', hc', hp2⟩ := wordsUnderList_child_prefix rest cur x hx2
    have : c = c' := char_prefix_unique hp1 hp2
    exact hcnot (this ▸ hc')
end

/-! ## C4: walking a prefix restricts the DFS to the matching subtree -/

theorem filter_wordsUnder_child (children : List (Char × TrieNode))
    (isEnd : Bool) (cur : List Char) (c : Char) (p' : List Char)
    (child : TrieNode) (hnd : (children.map Prod.fst).Nodup)
    (hget : alistGet children c = some child) :
    (wordsUnder (TrieNode.mk children isEnd) cur).filter
      (fun x => ((cur ++ [c]) ++ p').isPrefixOf x) =
    (wordsUnder child (cur ++ [c])).filter
      (fun x => ((cur ++ [c]) ++ p').isPrefixOf x) := by
  obtain ⟨l₁, l₂, hsplit, hno1⟩ := alistGet_split hget
  have hno2 : ∀ q ∈ l₂, q.1 ≠ c := keys_no_dup_right (hsplit ▸ hnd)
  rw [wordsUnder, hsplit, wordsUnderList_append,
    show wordsUnderList ((c, child) :: l₂) cur =
      wordsUnder child (cur ++ [c]) ++ wordsUnderList l₂ cur from rfl]
  rw [List.filter_append, List.filter_append, List.filter_append]
  have hend : ((if isEnd = true then [cur] else []).filter
      (fun x => ((cur ++ [c]) ++ p').isPrefixOf x)) = [] := by
    cases isEnd
    · simp
    · rw [if_pos rfl, List.filter_eq_nil_iff]
      intro a ha hp
      rw [List.mem_singleton] at ha
      subst ha
      have hl := (List.isPrefixOf_iff_prefix.mp hp).length_le
      simp [List.length_append] at hl
  have hl1 : (wordsUnderList l₁ cur).filter
      (fun x => ((cur ++ [c]) ++ p').isPrefixOf x) = [] := by
    rw [List.filter_eq_nil_iff]
    intro x hx hp
    obtain ⟨c', hc', hpc⟩ := wordsUnderList_child_prefix l₁ cur x hx
    have hpx := List.isPrefixOf_iff_prefix.mp hp
    have hcx : (cur ++ [c]) <+: x :=
      (List.prefix_append (cur ++ [c]) p').trans hpx
    have hcc : c = c' := char_prefix_unique hcx hpc
    obtain ⟨q, hq, hq1⟩ := List.mem_map.mp hc'
    exact hno1 q hq (by rw [hq1, ← hcc])
  have hl2 : (wordsUnderList l₂ cur).filter
      (fun x => ((cur ++ [c]) ++ p').isPrefixOf x) = [] := by
    rw [List.filter_eq_nil_iff]
    intro x hx hp
    obtain ⟨c', hc', hpc⟩ := wordsUnderList_child_prefix l₂ cur x hx
    have hpx := List.isPrefixOf_iff_prefix.mp hp
    have hcx : (cur ++ [c]) <+: x :=
      (List.prefix_append (cur ++ [c]) p').trans hpx
    have hcc : c = c' := char_prefix_unique hcx hpc
    obtain ⟨q, hq, hq1⟩ := List.mem_map.mp hc'
    exact hno2 q hq (by rw [hq1, ← hcc])
  rw [hend, hl1, hl2, List.nil_append, List.nil_append, List.append_nil]

theorem walk_filter (p : List Char) :
    ∀ (t : TrieNode) (cur : List Char), t.wf →
      (walkPrefix t p = none →
        (wordsUnder t cur).filter (fun x => (cur ++ p).isPrefixOf x) = []) ∧
      (∀ tp, walkPrefix t p = some tp →
        wordsUnder tp (cur ++ p) =
          (wordsUnder t cur).filter (fun x => (cur ++ p).isPrefixOf x)) := by
  induction p with
  | nil =>
    intro t cur hwf
    constructor
    · intro habs
      rw [walkPrefix] at habs
      simp at habs
    · intro tp htp
      rw [walkPrefix] at htp
      injection htp with htp
      subst htp
      rw [List.append_nil]
      symm
      rw [List.filter_eq_self]
      intro x hx
      exact List.isPrefixOf_iff_prefix.mpr (wordsUnder_extends _ cur x hx)
  | cons c p' ih =>
    intro t cur hwf
    obtain ⟨children, isEnd⟩ := t
    have hwf' := hwf
    rw [TrieNode.wf] at hwf'
    obtain ⟨hnd, hwl⟩ := hwf'
    have hwalkeq : walkPrefix (TrieNode.mk children isEnd) (c :: p') =
        match alistGet children c with
        | none => none
        | some child => walkPrefix child p' := rfl
    constructor
    · intro hnone
      rw [hwalkeq] at hnone
      cases hget : alistGet children c with
      | none =>
        rw [List.filter_eq_nil_iff]
        intro x hx hp
        have hpx := List.isPrefixOf_iff_prefix.mp hp
        have hcx : (cur ++ [c]) <+: x := by
          have h1 : (cur ++ [c]) <+: ((cur ++ [c]) ++ p') :=
            List.prefix_append _ _
          rw [← List.append_cons] at h1
          exact h1.trans hpx
        rw [wordsUnder] at hx
        rcases List.mem_append.mp hx with h | h
        · cases isEnd
          · simp at h
          · rw [if_pos rfl, List.mem_singleton] at h
            subst h
            have hl := hcx.length_le
            simp at hl
        · obtain ⟨c', hc', hpc⟩ := wordsUnderList_child_prefix children cur x h
          have hcc : c = c' := char_prefix_unique hcx hpc
          obtain ⟨q, hq, hq1⟩ := List.mem_map.mp hc'
          exact (alistGet_none_iff children c).mp hget q hq (by
            rw [hq1, ← hcc])
      | some child =>
        rw [hget] at hnone
        have hwfchild : child.wf := wfList_mem hwl (alistGet_mem hget)
        obtain ⟨hn, _⟩ := ih child (cur ++ [c]) hwfchild
        have hchildnil := hn hnone
        rw [show cur ++ c :: p' = (cur ++ [c]) ++ p' from
          List.append_cons cur c p']
        rw [filter_wordsUnder_child children isEnd cur c p' child hnd hget]
        exact hchildnil
    · intro tp htp
      rw [hwalkeq] at htp
      cases hget : alistGet children c with
      | none =>
        rw [hget] at htp
        simp at htp
      | some child =>
        rw [hget] at htp
        have hwfchild : child.wf := wfList_mem hwl (alistGet_mem hget)
        obtain ⟨_, hs⟩ := ih child (cur ++ [c]) hwfchild
        have heq := hs tp htp
        rw [show cur ++ c :: p' = (cur ++ [c]) ++ p' from
          List.append_cons cur c p']
        rw [filter_wordsUnder_child children isEnd cur c p' child hnd hget]
        exact heq

/-! ## C4: facts about the trie built from a word list -/

theorem wf_foldl_insert :
    ∀ (ws : List String) (t : TrieNode), t.wf →
      (ws.foldl Trie.insert t).wf := by
  intro ws
  induction ws with
  | nil => intro t h; exact h
  | cons w0 rest ih =>
    intro t h
    exact ih _ (wf_insertAux w0.data t h)

theorem wf_buildTrie (W : List String) : (buildTrie W).wf :=
  wf_foldl_insert W TrieNode.empty wf_empty

theorem mem_foldl_insert_mono :
    ∀ (ws : List String) (t : TrieNode) (cur x : List Char), t.wf →
      x ∈ wordsUnder t cur → x ∈ wordsUnder (ws.foldl Trie.insert t) cur := by
  intro ws
  induction ws with
  | nil => intro t cur x _ hx; exact hx
  | cons w0 rest ih =>
    intro t cur x hwf hx
    exact ih _ cur x (wf_insertAux w0.data t hwf)
      (wordsUnder_insertAux_mono w0.data t cur x hwf hx)

theorem mem_wordsUnder_foldl :
    ∀ (ws : List String) (t : TrieNode) (w : String), t.wf → w ∈ ws →
      w.data ∈ wordsUnder (ws.foldl Trie.insert t) [] := by
  intro ws
  induction ws with
  | nil => intro t w _ hw; simp at hw
  | cons w0 rest ih =>
    intro t w hwf hw
    rcases List.mem_cons.mp hw with rfl | hw'
    · refine mem_foldl_insert_mono rest _ [] w.data
        (wf_insertAux w.data t hwf) ?_
      have := mem_wordsUnder_insertAux w.data t []
      simpa using this
    · exact ih _ w (wf_insertAux w0.data t hwf) hw'

theorem mem_wordsUnder_buildTrie {W : List String} {w : String}
    (hw : w ∈ W) : w.data ∈ wordsUnder (buildTrie W) [] :=
  mem_wordsUnder_foldl W TrieNode.empty w wf_empty hw

theorem wordsUnder_foldl_subset :
    ∀ (ws : List String) (t : TrieNode) (cur x : List Char),
      x ∈ wordsUnder (ws.foldl Trie.insert t) cur →
      x ∈ wordsUnder t cur ∨ ∃ w ∈ ws, x = cur ++ w.data := by
  intro ws
  induction ws with
  | nil => intro t cur x hx; exact Or.inl hx
  | cons w0 rest ih =>
    intro t cur x hx
    rcases ih _ cur x hx with h | h
    · rcases wordsUnder_insertAux_subset w0.data t cur x h with h' | h'
      · exact Or.inr ⟨w0, by simp, h'⟩
      · exact Or.inl h'
    · obtain ⟨w', hw', he⟩ := h
      exact Or.inr ⟨w', by simp [hw'], he⟩

theorem wordsUnder_buildTrie_subset {W : List String} {x : List Char}
    (hx : x ∈ wordsUnder (buildTrie W) []) : ∃ w ∈ W, x = w.data := by
  rcases wordsUnder_foldl_subset W TrieNode.empty [] x hx with h | h
  · rw [wordsUnder_empty] at h
    simp at h
  · obtain ⟨w', hw', he⟩ := h
    exact ⟨w', hw', by simpa using he⟩

theorem string_data_injective : Function.Injective String.data := by
  intro a b hab
  obtain ⟨la⟩ := a
  obtain ⟨lb⟩ := b
  have : la = lb := hab
  rw [this]

/-- C4: for every word list `W` inserted into a fresh trie, every
`w ∈ W`, every prefix `p` of `w`, and every `limit` at least the number
of distinct words of `W` starting with `p`, `getSuggestions(p, limit)`
contains `w`. -/
theorem C4_trie_roundtrip (W : List String) (w p : String) (limit : Nat)
    (hw : w ∈ W) (hp : p.data <+: w.data)
    (hlim : ((W.filter (fun v => p.data.isPrefixOf v.data)).dedup).length ≤
      limit) :
    w ∈ Trie.getSuggestions (buildTrie W) p limit := by
  have hwfT : (buildTrie W).wf := wf_buildTrie W
  have hwmem : w.data ∈ wordsUnder (buildTrie W) [] :=
    mem_wordsUnder_buildTrie hw
  obtain ⟨hnone, hsome⟩ := walk_filter p.data (buildTrie W) [] hwfT
  cases hwalk : walkPrefix (buildTrie W) p.data with
  | none =>
    exfalso
    have h0 := hnone hwalk
    simp only [List.nil_append] at h0
    have hm : w.data ∈ (wordsUnder (buildTrie W) []).filter
        (fun x => p.data.isPrefixOf x) :=
      List.mem_filter.mpr ⟨hwmem, List.isPrefixOf_iff_prefix.mpr hp⟩
    rw [h0] at hm
    simp at hm
  | some tp =>
    have heq := hsome tp hwalk
    simp only [List.nil_append] at heq
    -- bound the number of words below the prefix node
    have hflen : (wordsUnder tp p.data).length ≤ limit := by
      rw [heq]
      set F := (wordsUnder (buildTrie W) []).filter
        (fun x => p.data.isPrefixOf x) with hF
      have hFnd : F.Nodup :=
        (nodup_wordsUnder (buildTrie W) [] hwfT).filter _
      have hFsub : ∀ x ∈ F, x ∈ (W.filter
          (fun v => p.data.isPrefixOf v.data)).map String.data := by
        intro x hx
        obtain ⟨hx1, hx2⟩ := List.mem_filter.mp hx
        obtain ⟨w', hw', rfl⟩ := wordsUnder_buildTrie_subset hx1
        exact List.mem_map.mpr ⟨w', List.mem_filter.mpr ⟨hw', hx2⟩, rfl⟩
      have h1 : F.length = F.toFinset.card :=
        (List.toFinset_card_of_nodup hFnd).symm
      have h2 : F.toFinset ⊆ ((W.filter
          (fun v => p.data.isPrefixOf v.data)).map String.data).toFinset := by
        intro x hx
        rw [List.mem_toFinset] at hx ⊢
        exact hFsub x hx
      have h3 := Finset.card_le_card h2
      have h4 : ((W.filter (fun v => p.data.isPrefixOf v.data)).map
          String.data).toFinset.card =
          (W.filter (fun v => p.data.isPrefixOf v.data)).toFinset.card := by
        have himg : ((W.filter (fun v => p.data.isPrefixOf v.data)).map
            String.data).toFinset =
            (W.filter (fun v => p.data.isPrefixOf v.data)).toFinset.image
              String.data := by
          apply Finset.ext
          intro x
          simp [List.mem_toFinset, Finset.mem_image]
        rw [himg]
        exact Finset.card_image_of_injective _ string_data_injective
      have h5 : (W.filter (fun v => p.data.isPrefixOf v.data)).toFinset.card =
          ((W.filter (fun v => p.data.isPrefixOf v.data)).dedup).length :=
        List.card_toFinset _
      omega
    have hcollect := collect_eq_wordsUnder limit tp p.data []
      (by simpa using hflen)
    have hsugg : Trie.getSuggestions (buildTrie W) p limit =
        (collectWords limit tp p.data []).map (fun v => String.mk v) := by
      unfold Trie.getSuggestions
      rw [hwalk]
    rw [hsugg, hcollect, List.nil_append]
    refine List.mem_map.mpr ⟨w.data, ?_, rfl⟩
    rw [heq]
    exact List.mem_filter.mpr ⟨hwmem, List.isPrefixOf_iff_prefix.mpr hp⟩

/-- Witness for C4: `"py"` is a prefix of `"python" ∈ W` and the limit
10 covers the two matching words, so the suggestions contain
`"python"`. -/
theorem C4_trie_roundtrip_witness :
    "python" ∈ Trie.getSuggestions
      (buildTrie ["python", "pyramid", "react"]) "py" 10 :=
  C4_trie_roundtrip ["python", "pyramid", "react"] "python" "py" 10
    (by decide) (by decide) (by decide)

end Apex
